import Mathlib

/-!
Verification of the lppc CLI core against its specification.

The definitions below are shallow embeddings of the Rust sources of the
`lppc` repository (src/lppc-cli).  Rust `&str` / `String` values are
modelled as `List Char`, `HashSet` values as lists with insert-if-absent
semantics, and `HashMap` values as association lists.  Each definition
names the Rust item it embeds.
-/

namespace Lppc

/-- Strings are modelled as lists of characters. -/
abbrev Str := List Char

/-- Characters of a string literal; used to write concrete inputs. -/
def str (s : String) : Str := s.data

/-- Lexicographic order `≤` on character lists (the order used by Rust's
`sort` on strings; UTF-8 byte order and scalar-value order coincide). -/
def lexLe (a b : Str) : Prop := a ≤ b

instance : DecidableRel lexLe := fun a b => inferInstanceAs (Decidable (a ≤ b))

instance : IsTotal Str lexLe := ⟨fun a b => le_total a b⟩

instance : IsTrans Str lexLe := ⟨fun _ _ _ h h' => le_trans h h'⟩

instance : IsAntisymm Str lexLe := ⟨fun _ _ h h' => le_antisymm h h'⟩

/-- Sorting used everywhere a Rust `Vec<String>` is sorted ascending. -/
def sortStr (l : List Str) : List Str := List.insertionSort lexLe l

/-- The sort really sorts ascending. -/
theorem sortStr_sorted (l : List Str) : List.Sorted lexLe (sortStr l) :=
  List.sorted_insertionSort lexLe l

/-- The sort is a permutation of its input. -/
theorem sortStr_perm (l : List Str) : List.Perm (sortStr l) l :=
  List.perm_insertionSort lexLe l

/-- Two sorted lists that are permutations of each other are equal. -/
theorem sortStr_eq_of_perm {l₁ l₂ : List Str} (h : List.Perm l₁ l₂) :
    sortStr l₁ = sortStr l₂ :=
  List.eq_of_perm_of_sorted ((sortStr_perm l₁).trans (h.trans (sortStr_perm l₂).symm))
    (sortStr_sorted l₁) (sortStr_sorted l₂)

/-! ## Output format selection (src/lppc-cli/src/cli.rs, output/formatter.rs) -/

/-- Output formats accepted by the CLI (`OutputFormat` in src/lppc-cli/src/cli.rs);
`plain` carries the `#[default]` attribute and is the `--output-format` default. -/
inductive OutputFormat
  | plain
  | json
  | jsonGrouped
  | hcl
  | hclGrouped
deriving DecidableEq

/-- The default of the `-f` / `--output-format` flag (cli.rs line 34). -/
def defaultOutputFormat : OutputFormat := OutputFormat.plain

/-- The formatters that `create_formatter` can construct. -/
inductive Formatter
  | jsonFmt (grouped : Bool)
  | hclFmt (grouped : Bool)
deriving DecidableEq

/-- Embedding of `create_formatter` (src/lppc-cli/src/output/formatter.rs lines 52-62).
The Rust `match` has arms only for `Json`, `JsonGrouped`, `Hcl` and `HclGrouped`;
there is no arm for `OutputFormat::Plain`, and src/lppc-cli/src/output/mod.rs does
not declare the `plain` module at all, so no plain formatter can be produced.  The
missing arm is modelled as `none`. -/
def create_formatter : OutputFormat → Option Formatter
  | OutputFormat.json => some (Formatter.jsonFmt false)
  | OutputFormat.jsonGrouped => some (Formatter.jsonFmt true)
  | OutputFormat.hcl => some (Formatter.hclFmt false)
  | OutputFormat.hclGrouped => some (Formatter.hclFmt true)
  | OutputFormat.plain => none

/-- Embedding of `PlainFormatter::format` (src/lppc-cli/src/output/plain.rs lines
15-29): permissions sorted ascending, joined with newlines.  This code is dead:
output/mod.rs never compiles the `plain` module and `create_formatter` never
returns it. -/
def plainFormat (permissions : List Str) : Str :=
  List.intercalate (str "\n") (sortStr permissions)

/-- Extension of the dead plain formatter (plain.rs lines 26-28). -/
def plainExtension : Str := str "txt"

/-! ## Generic helpers: splitting and association lists -/

/-- Splitting a character list at a separator, mirroring Rust's `str::split`:
the result is never empty, and splitting the empty string yields `[[]]`. -/
def splitChar (sep : Char) : Str → List Str
  | [] => [[]]
  | c :: cs =>
    if c = sep then [] :: splitChar sep cs
    else
      match splitChar sep cs with
      | [] => [[c]]
      | h :: t => (c :: h) :: t

/-- Splitting never yields the empty list of pieces. -/
theorem splitChar_ne_nil (sep : Char) (l : Str) : splitChar sep l ≠ [] := by
  induction l with
  | nil => simp [splitChar]
  | cons c cs ih =>
    simp only [splitChar]
    by_cases h : c = sep
    · simp [h]
    · simp only [h, if_false]
      cases hs : splitChar sep cs <;> simp

/-- The first piece of a split is the longest separator-free leading segment. -/
theorem splitChar_head (sep : Char) (l : Str) :
    (splitChar sep l).head? = some (l.takeWhile (fun c => c ≠ sep)) := by
  induction l with
  | nil => simp [splitChar]
  | cons c cs ih =>
    simp only [splitChar, List.takeWhile]
    by_cases h : c = sep
    · simp [h]
    · simp only [h, if_false, decide_not]
      cases hs : splitChar sep cs with
      | nil => exact absurd hs (splitChar_ne_nil sep cs)
      | cons hd t =>
        rw [hs] at ih
        simp at ih
        simp [h, ih]

/-- Lookup in an association list (the model of Rust `HashMap` reads). -/
def alookup {α β : Type} [DecidableEq α] (k : α) : List (α × β) → Option β
  | [] => none
  | p :: rest => if p.1 = k then some p.2 else alookup k rest

/-- `HashMap::insert` on a generic association list: replace or append. -/
def ainsert {α β : Type} [DecidableEq α] (m : List (α × β)) (k : α) (v : β) :
    List (α × β) :=
  if (alookup k m).isSome then m.map (fun p => if p.1 = k then (p.1, v) else p)
  else m ++ [(k, v)]

/-- `HashMap::entry(k).or_default().push(v)`: append `v` to the bucket of `k`,
creating the bucket at the end when absent. -/
def bucketAdd {α β : Type} [DecidableEq α] (m : List (α × List β)) (k : α)
    (v : β) : List (α × List β) :=
  match alookup k m with
  | some bucket => ainsert m k (bucket ++ [v])
  | Option.none => m ++ [(k, [v])]

/-- Lookup distributes over append: the left list is consulted first. -/
theorem alookup_append {α β : Type} [DecidableEq α] (k : α)
    (m l : List (α × β)) :
    alookup k (m ++ l) = ((alookup k m).or (alookup k l)) := by
  induction m with
  | nil => simp [alookup]
  | cons p rest ih =>
    by_cases h : p.1 = k <;> simp [alookup, h, ih]

/-- Lookup after replacing the value bound to `k`. -/
theorem alookup_map_replace {α β : Type} [DecidableEq α] (m : List (α × β))
    (k : α) (v : β) :
    alookup k (m.map (fun p => if p.1 = k then (p.1, v) else p)) =
      (alookup k m).map (fun _ => v) := by
  induction m with
  | nil => simp [alookup]
  | cons p rest ih =>
    by_cases hk : p.1 = k <;>
      simp [alookup, hk, ih, apply_ite Prod.fst, apply_ite Prod.snd]

/-- Lookup of another key after replacing the value bound to `k'`. -/
theorem alookup_map_replace_ne {α β : Type} [DecidableEq α]
    (m : List (α × β)) {k k' : α} (v : β) (h : k' ≠ k) :
    alookup k (m.map (fun p => if p.1 = k' then (p.1, v) else p)) =
      alookup k m := by
  induction m with
  | nil => simp [alookup]
  | cons p rest ih =>
    by_cases hk : p.1 = k'
    · have hne : p.1 ≠ k := by rw [hk]; exact h
      simp [alookup, hk, hne, h, ih, apply_ite Prod.fst, apply_ite Prod.snd]
    · simp [alookup, hk, ih, apply_ite Prod.fst, apply_ite Prod.snd]

/-- Looking up the key just inserted yields the inserted value. -/
theorem alookup_ainsert {α β : Type} [DecidableEq α] (m : List (α × β))
    (k : α) (v : β) : alookup k (ainsert m k v) = some v := by
  cases hm : alookup k m with
  | some w => simp [ainsert, hm, alookup_map_replace]
  | none => simp [ainsert, hm, alookup_append, alookup]

/-- Inserting at a different key does not change a lookup. -/
theorem alookup_ainsert_ne {α β : Type} [DecidableEq α] (m : List (α × β))
    {k k' : α} (v : β) (h : k' ≠ k) :
    alookup k (ainsert m k' v) = alookup k m := by
  cases hm : alookup k' m with
  | some w => simp [ainsert, hm, alookup_map_replace_ne m v h]
  | none => simp [ainsert, hm, alookup_append, alookup, h]

/-- Every binding of an insert result is the inserted value or an original
binding. -/
theorem mem_ainsert {α β : Type} [DecidableEq α] {m : List (α × β)}
    {k : α} {v : β} {p : α × β} (h : p ∈ ainsert m k v) :
    p.2 = v ∨ p ∈ m := by
  cases hm : alookup k m with
  | some w =>
    simp only [ainsert, hm, Option.isSome_some, if_true, List.mem_map] at h
    obtain ⟨q, hq, hmap⟩ := h
    by_cases hk : q.1 = k
    · left
      rw [← hmap]
      simp [hk]
    · right
      rw [← hmap]
      simp only [hk, if_false]
      exact hq
  | none =>
    simp only [ainsert, hm, Option.isSome_none, Bool.false_eq_true, if_false,
      List.mem_append, List.mem_singleton] at h
    rcases h with h | h
    · right; exact h
    · left; rw [h]

/-! ## Terraform block model (src/lppc-cli/src/terraform/model.rs) -/

/-- Embedding of `BlockType` (model.rs lines 146-151). -/
inductive BlockType
  | resource
  | data
  | ephemeral
  | action
deriving DecidableEq

/-- Embedding of `BlockType::as_str` (model.rs lines 154-161). -/
def BlockType.as_str : BlockType → Str
  | BlockType.resource => str "resource"
  | BlockType.data => str "data"
  | BlockType.ephemeral => str "ephemeral"
  | BlockType.action => str "action"

/-- Embedding of `TerraformBlock` (model.rs lines 124-144).  The
`present_attributes` `HashSet<Vec<String>>` is modelled as a list of paths
queried only through membership. -/
structure TerraformBlock where
  block_type : BlockType
  type_name : Str
  name : Str
  provider_config_key : Str
  present_attributes : List (List Str)
  address : Str
deriving DecidableEq

/-- Embedding of `ProviderGroup` (model.rs lines 111-120). -/
structure ProviderGroup where
  output_name : Str
  role_arn : Option Str
  blocks : List TerraformBlock
deriving DecidableEq

/-- Embedding of `TerraformConfig` (model.rs lines 99-107); the
`provider_groups` `HashMap` is an association list keyed by output name. -/
structure TerraformConfig where
  provider_groups : List (Str × ProviderGroup)
  unmapped_blocks : List TerraformBlock
deriving DecidableEq

/-! ## Mapping schema (src/lppc-cli/src/mapping/schema.rs) -/

/-- Embedding of `ConditionalActions` (schema.rs lines 32-42); the `Nested`
`HashMap` is an association list. -/
inductive ConditionalActions
  | actions (l : List Str)
  | nested (m : List (Str × ConditionalActions))
  | none

/-- Embedding of `ActionMapping` (schema.rs lines 14-24). -/
structure ActionMapping where
  allow : List Str
  deny : List Str
  conditional : ConditionalActions

/-- Per-entry loop of the `Nested` arm of `ConditionalActions::resolve_recursive`
(schema.rs lines 100-124): each key extends the current path; the child
contributes only when the extended path is present, and a nested child recurses
at the extended path. -/
def resolveEntries (present_paths : List (List Str)) :
    List (Str × ConditionalActions) → List Str → List Str
  | [], _ => []
  | (k, v) :: rest, current_path =>
    let new_path := current_path ++ [k]
    (if new_path ∈ present_paths then
      match v with
      | ConditionalActions.actions acts => acts
      | ConditionalActions.nested m2 => resolveEntries present_paths m2 new_path
      | ConditionalActions.none => []
    else []) ++ resolveEntries present_paths rest current_path

/-- Embedding of `ConditionalActions::resolve_recursive` (schema.rs lines
82-126). -/
def resolveRecursive (t : ConditionalActions) (current_path : List Str)
    (present_paths : List (List Str)) : List Str :=
  match t with
  | ConditionalActions.none => []
  | ConditionalActions.actions acts =>
    if current_path ∈ present_paths then acts else []
  | ConditionalActions.nested m => resolveEntries present_paths m current_path

/-- Embedding of `ConditionalActions::resolve` (schema.rs lines 78-80). -/
def ConditionalActions.resolve (t : ConditionalActions)
    (present_paths : List (List Str)) : List Str :=
  resolveRecursive t [] present_paths

/-! ## Mapping loader (src/lppc-cli/src/mapping/loader.rs) -/

/-- Embedding of `MappingLoader::extract_provider` (loader.rs lines 163-165):
`type_name.split('_').next().filter(|s| !s.is_empty())`. -/
def extract_provider (type_name : Str) : Option Str :=
  (splitChar '_' type_name).head?.filter (fun s => !s.isEmpty)

/-- The mapping loader is abstracted as a pure oracle from the mapping key
(provider, block type, type name) to the parsed mapping, modelling a run of
`MappingLoader::load` in which no I/O or parse error occurs.  The in-memory
cache of loader.rs only memoises this function and never changes its value. -/
def Loader : Type := Str → BlockType → Str → Option ActionMapping

/-! ## Permission matcher (src/lppc-cli/src/mapping/matcher.rs) -/

/-- Embedding of `GroupPermissions` (matcher.rs lines 15-21); the `HashSet`s
are lists built by insert-if-absent. -/
structure GroupPermissions where
  allow : List Str
  deny : List Str
deriving DecidableEq

/-- Embedding of `MissingMapping` (matcher.rs lines 38-47). -/
structure MissingMapping where
  block_type : BlockType
  type_name : Str
  expected_path : Str
deriving DecidableEq

/-- Embedding of `PermissionResult` (matcher.rs lines 25-34). -/
structure PermissionResult where
  groups : List (Str × GroupPermissions)
  missing_mappings : List MissingMapping
deriving DecidableEq

/-- `HashSet::insert`: add an element unless already present. -/
def insertSet (s : List Str) (a : Str) : List Str :=
  if a ∈ s then s else s ++ [a]

/-- Inserting every element of a list into a set. -/
def insertAll (s : List Str) (l : List Str) : List Str :=
  l.foldl insertSet s

/-- The missing-mapping bookkeeping threaded through
`PermissionMatcher::resolve`: `seen_types` and `missing_mappings`
(matcher.rs lines 87-88). -/
structure MatchState where
  seen_types : List (BlockType × Str)
  missing_mappings : List MissingMapping
deriving DecidableEq

/-- The provider the matcher derives for a block:
`MappingLoader::extract_provider(&block.type_name).unwrap_or("unknown")`
(matcher.rs lines 98-99). -/
def matcher_provider (type_name : Str) : Str :=
  (extract_provider type_name).getD (str "unknown")

/-- Body of the per-block loop of `PermissionMatcher::resolve` (matcher.rs
lines 94-152): resolve the provider from the type name, query the loader, add
allow, deny and conditional actions on a hit, and record a missing mapping at
most once per `(block type, type name)` on a miss. -/
def process_block (f : Loader) (st : MatchState) (acc : GroupPermissions)
    (b : TerraformBlock) : GroupPermissions × MatchState :=
  let provider := matcher_provider b.type_name
  match f provider b.block_type b.type_name with
  | some mapping =>
    let allow₁ := insertAll acc.allow mapping.allow
    let deny₁ := insertAll acc.deny mapping.deny
    let conditional_actions := mapping.conditional.resolve b.present_attributes
    let allow₂ := insertAll allow₁ conditional_actions
    (⟨allow₂, deny₁⟩, st)
  | Option.none =>
    if (b.block_type, b.type_name) ∈ st.seen_types then (acc, st)
    else
      (acc,
        ⟨st.seen_types ++ [(b.block_type, b.type_name)],
          st.missing_mappings ++
            [⟨b.block_type, b.type_name,
              str "mappings/" ++ provider ++ str "/" ++ b.block_type.as_str ++
                str "/" ++ b.type_name ++ str ".yaml"⟩]⟩)

/-- The per-group fold of `PermissionMatcher::resolve` (matcher.rs lines
91-152), starting from empty allow and deny sets. -/
def process_group (f : Loader) (st : MatchState) (blocks : List TerraformBlock) :
    GroupPermissions × MatchState :=
  blocks.foldl (fun p b => process_block f p.2 p.1 b) (⟨[], []⟩, st)

/-- `HashMap::insert` for the result groups of the matcher. -/
def insertGroup (groups : List (Str × GroupPermissions)) (name : Str)
    (perms : GroupPermissions) : List (Str × GroupPermissions) :=
  ainsert groups name perms

/-- One iteration of the provider-group loop of `PermissionMatcher::resolve`
(matcher.rs lines 90-163): resolve the group's blocks and add the group to the
result only when its allow or deny set is nonempty (lines 154-163). -/
def resolveGroupStep (f : Loader)
    (acc : List (Str × GroupPermissions) × MatchState)
    (entry : Str × ProviderGroup) :
    List (Str × GroupPermissions) × MatchState :=
  let out := process_group f acc.2 entry.2.blocks
  if !out.1.allow.isEmpty || !out.1.deny.isEmpty then
    (insertGroup acc.1 entry.1 out.1, out.2)
  else (acc.1, out.2)

/-- Embedding of `PermissionMatcher::resolve` (matcher.rs lines 85-178): fold
over the provider groups, starting from an empty result and empty
missing-mapping bookkeeping. -/
def PermissionMatcher.resolve (f : Loader) (cfg : TerraformConfig) :
    PermissionResult :=
  let out := cfg.provider_groups.foldl (resolveGroupStep f) ([], ⟨[], []⟩)
  ⟨out.1, out.2.missing_mappings⟩

/-! ## Provider grouping (src/lppc-cli/src/terraform/hcl_parser.rs, provider.rs) -/

/-- Lowercasing a string (Rust `str::to_lowercase`, ASCII-faithful). -/
def lowerStr (s : Str) : Str := s.map Char.toLower

/-- Splitting on `_` or `-` for PascalCase conversion
(`input.split(|c| c == '_' || c == '-')` in provider.rs line 75). -/
def splitSegs : Str → List Str
  | [] => [[]]
  | c :: cs =>
    if c = '_' ∨ c = '-' then [] :: splitSegs cs
    else
      match splitSegs cs with
      | [] => [[c]]
      | h :: t => (c :: h) :: t

/-- PascalCasing one segment: first character uppercased, the rest lowercased
(provider.rs lines 77-87). -/
def pascalSegment : Str → Str
  | [] => []
  | first :: rest => Char.toUpper first :: rest.map Char.toLower

/-- Embedding of `AwsProvider::to_pascal_case` (src/lppc-cli/src/terraform/provider.rs
lines 67-108): split on separators and PascalCase each nonempty segment; else
capitalise an all-lowercase word; else return the input unchanged. -/
def to_pascal_case (input : Str) : Str :=
  if input = [] then []
  else if '_' ∈ input ∨ '-' ∈ input then
    (((splitSegs input).filter (fun s => !s.isEmpty)).map pascalSegment).flatten
  else if input.all (fun c => !c.isUpper) then
    match input with
    | [] => []
    | first :: rest => Char.toUpper first :: rest
  else input

/-- Embedding of `ParsedProvider` (hcl_parser.rs lines 745-754).  The Rust
field `alias` is renamed `aliasOpt` because `alias` is a Lean command
keyword. -/
structure ParsedProvider where
  config_key : Str
  aliasOpt : Option Str
  role_arn : Option Str
deriving DecidableEq

/-- Embedding of `HclParser::derive_group_name` (hcl_parser.rs lines 715-740):
`DefaultDeployer` when any provider of the role group has no alias, otherwise
the alphabetically first alias in PascalCase with a normalised `Deployer`
suffix. -/
def derive_group_name (providers : List ParsedProvider) : Str :=
  let aliases := providers.map (fun p => p.aliasOpt)
  if aliases.any (fun a => a.isNone) then str "DefaultDeployer"
  else
    let sorted_aliases := sortStr (aliases.filterMap id)
    match sorted_aliases.head? with
    | some alias₀ =>
      let pascal_alias := to_pascal_case alias₀
      if (str "deployer").isSuffixOf (lowerStr pascal_alias) then
        pascal_alias.take (pascal_alias.length - 8) ++ str "Deployer"
      else pascal_alias ++ str "Deployer"
    | Option.none => str "DefaultDeployer"

/-- The `config_key → role_arn` map of `group_by_role` (hcl_parser.rs lines
654-658). -/
def key_to_role (providers : List ParsedProvider) : List (Str × Option Str) :=
  providers.foldl (fun m p => ainsert m p.config_key p.role_arn) []

/-- The `role_arn → providers` map of `group_by_role` (hcl_parser.rs lines
645-652). -/
def role_to_providers (providers : List ParsedProvider) :
    List (Option Str × List ParsedProvider) :=
  providers.foldl (fun m p => bucketAdd m p.role_arn p) []

/-- The `role_arn → output name` map of `group_by_role` (hcl_parser.rs lines
660-665). -/
def role_to_name (providers : List ParsedProvider) :
    List (Option Str × Str) :=
  (role_to_providers providers).map (fun e => (e.1, derive_group_name e.2))

/-- The `role_arn` resolved for a block inside the block loop of
`group_by_role` (hcl_parser.rs lines 671-674): look the block's
`provider_config_key` up in the key map and default to `None`. -/
def block_role (providers : List ParsedProvider) (b : TerraformBlock) :
    Option Str :=
  (alookup b.provider_config_key (key_to_role providers)).getD Option.none

/-- The output name resolved for a block inside the block loop of
`group_by_role` (hcl_parser.rs lines 676-679): look the role up in the name
map and default to `"DefaultDeployer"`. -/
def block_output_name (providers : List ParsedProvider)
    (b : TerraformBlock) : Str :=
  (alookup (block_role providers b) (role_to_name providers)).getD
    (str "DefaultDeployer")

/-- `groups.entry(output_name).or_insert_with(…)` followed by
`group.blocks.push(block)` (hcl_parser.rs lines 681-688). -/
def pushIntoGroup (groups : List (Str × ProviderGroup)) (name : Str)
    (role : Option Str) (b : TerraformBlock) : List (Str × ProviderGroup) :=
  match alookup name groups with
  | some g => ainsert groups name ⟨g.output_name, g.role_arn, g.blocks ++ [b]⟩
  | Option.none => groups ++ [(name, ⟨name, role, [b]⟩)]

/-- One iteration of the block loop of `group_by_role` (hcl_parser.rs lines
670-689). -/
def gbrStep (providers : List ParsedProvider)
    (groups : List (Str × ProviderGroup)) (b : TerraformBlock) :
    List (Str × ProviderGroup) :=
  pushIntoGroup groups (block_output_name providers b)
    (block_role providers b) b

/-- Embedding of `HclParser::group_by_role` (hcl_parser.rs lines 641-708): each
block's provider key is resolved to a role (defaulting to `None`), the role to
an output name (defaulting to `"DefaultDeployer"`), and the block is pushed
into the group of that name. -/
def group_by_role (providers : List ParsedProvider)
    (blocks : List TerraformBlock) : List (Str × ProviderGroup) :=
  blocks.foldl (gbrStep providers) []

/-- Tail of `HclParser::parse_directory` (hcl_parser.rs lines 51-58): the
parsed providers and blocks are grouped by role and the configuration is
assembled with an always-empty `unmapped_blocks` list (line 56). -/
def parse_directory_result (providers : List ParsedProvider)
    (blocks : List TerraformBlock) : TerraformConfig :=
  ⟨group_by_role providers blocks, []⟩

/-! ## Formatters (src/lppc-cli/src/output/json.rs, hcl.rs) -/

/-- Embedding of the `PermissionSets` pair handed to formatters
(src/lppc-cli/src/output/formatter.rs lines 15-21). -/
structure PermissionSets where
  allow : List Str
  deny : List Str
deriving DecidableEq

/-- Embedding of `Statement` (json.rs lines 24-32). -/
structure Stmt where
  effect : Str
  action : List Str
  resource : Str
deriving DecidableEq

/-- Service prefix of an action:
`perm.split(':').next().unwrap_or("unknown")` (json.rs line 108). -/
def serviceOf (perm : Str) : Str :=
  ((splitChar ':' perm).head?).getD (str "unknown")

/-- The service buckets built by the grouped formatters (json.rs lines
105-110, hcl.rs lines 108-113): each permission is pushed into the bucket of
its service prefix. -/
def buildBuckets (permissions : List Str) : List (Str × List Str) :=
  permissions.foldl (fun g p => bucketAdd g (serviceOf p) p) []

/-- Embedding of `JsonFormatter::create_single_statement` (json.rs lines
76-93): `None` when the permission set is empty, else one statement with the
sorted actions and wildcard resource. -/
def create_single_statement (permissions : List Str) (effect : Str) :
    Option Stmt :=
  if permissions.isEmpty then Option.none
  else some ⟨effect, sortStr permissions, str "*"⟩

/-- Embedding of `JsonFormatter::create_grouped_statements` (json.rs lines
96-127): one statement per service bucket, services sorted ascending, actions
sorted ascending, wildcard resource. -/
def create_grouped_statements (permissions : List Str) (effect : Str) :
    List Stmt :=
  if permissions.isEmpty then []
  else
    let groups := buildBuckets permissions
    let service_names := sortStr (groups.map (fun e => e.1))
    service_names.map
      (fun s => ⟨effect, sortStr ((alookup s groups).getD []), str "*"⟩)

/-- Embedding of the `Statement` array built by `JsonFormatter::format`
(json.rs lines 46-67): deny statements, then allow statements.  The
surrounding `{"Version": "2012-10-17", "Statement": …}` document is carried
verbatim by serde and not modelled further. -/
def jsonStatements (grouped : Bool) (permissions : PermissionSets) :
    List Stmt :=
  if grouped then
    create_grouped_statements permissions.deny (str "Deny") ++
      create_grouped_statements permissions.allow (str "Allow")
  else
    (create_single_statement permissions.deny (str "Deny")).toList ++
      (create_single_statement permissions.allow (str "Allow")).toList

/-- Embedding of `HclFormatter::format_action_list` (hcl.rs lines 167-181):
a single action renders as a quoted string, several as an HCL list literal. -/
def format_action_list : List Str → Str
  | [] => str "[]"
  | [a] => str "\"" ++ a ++ str "\""
  | actions =>
    str "[\n" ++
      List.intercalate (str ",\n")
        (actions.map (fun a => str "        \"" ++ a ++ str "\"")) ++
      str "\n      ]"

/-- The statement-block template shared by `format_statement_block` (hcl.rs
lines 154-160, always called with `indent = 4`) and
`create_grouped_statement_blocks` (hcl.rs lines 125-131). -/
def renderStmtBlock (effect : Str) (actions_hcl : Str) : Str :=
  str "    \x7b\n      Effect   = \"" ++ effect ++
    str "\"\n      Action   = " ++ actions_hcl ++
    str "\n      Resource = \"*\"\n    \x7d"

/-- Embedding of `HclFormatter::format_statement_block` (hcl.rs lines
138-161): `None` when the permission set is empty, else the rendered block
with sorted actions. -/
def format_statement_block (permissions : List Str) (effect : Str) :
    Option Str :=
  if permissions.isEmpty then Option.none
  else some (renderStmtBlock effect (format_action_list (sortStr permissions)))

/-- Embedding of `HclFormatter::create_grouped_statement_blocks` (hcl.rs lines
99-135): one rendered block per service bucket, services sorted ascending,
actions sorted ascending. -/
def create_grouped_statement_blocks (permissions : List Str) (effect : Str) :
    List Str :=
  if permissions.isEmpty then []
  else
    let groups := buildBuckets permissions
    let service_names := sortStr (groups.map (fun e => e.1))
    service_names.map
      (fun s =>
        renderStmtBlock effect
          (format_action_list (sortStr ((alookup s groups).getD []))))

/-- The statement blocks collected by `HclFormatter::format_single` (hcl.rs
lines 40-48) and `HclFormatter::format_grouped` (hcl.rs lines 74-78): deny
blocks, then allow blocks. -/
def hclStatementBlocks (grouped : Bool) (permissions : PermissionSets) :
    List Str :=
  if grouped then
    create_grouped_statement_blocks permissions.deny (str "Deny") ++
      create_grouped_statement_blocks permissions.allow (str "Allow")
  else
    (format_statement_block permissions.deny (str "Deny")).toList ++
      (format_statement_block permissions.allow (str "Allow")).toList

/-- The document wrapper of `format_single` / `format_grouped` (hcl.rs lines
50-70 and 80-95): the joined statement array inside `jsonencode({…})`. -/
def hclDocument (blocks : List Str) : Str :=
  let statements_content :=
    match blocks with
    | [] => str "[]"
    | [b] => str "[\n" ++ b ++ str "\n  ]"
    | bs => str "[\n" ++ List.intercalate (str ",\n") bs ++ str "\n  ]"
  str "jsonencode(\x7b\n  Version = \"2012-10-17\"\n  Statement = " ++
    statements_content ++ str "\n\x7d)"

/-- Embedding of `HclFormatter::format` (hcl.rs lines 25-31). -/
def HclFormatter.format (grouped : Bool) (permissions : PermissionSets) : Str :=
  hclDocument (hclStatementBlocks grouped permissions)

/-! ## Cache URL parsing (src/lppc-cli/src/mapping/cache.rs) -/

/-- Embedding of `CacheError` (cache.rs lines 17-26); the I/O variant is not
reachable in the pure URL-parsing fragment. -/
inductive CacheError
  | noHomeDirectory
  | invalidUrl (msg : Str)
deriving DecidableEq

/-- Rust `str::trim` (ASCII-faithful). -/
def trimAscii (s : Str) : Str :=
  ((s.dropWhile Char.isWhitespace).reverse.dropWhile Char.isWhitespace).reverse

/-- Whether a string contains two consecutive dots, i.e. the substring `..`
(`component.contains("..")` in cache.rs line 160). -/
def containsDD : Str → Bool
  | [] => false
  | [_] => false
  | c :: c' :: rest => (c = '.' && c' = '.') || containsDD (c' :: rest)

/-- Embedding of `CacheManager::validate_path_component` (cache.rs lines
151-192): nonempty, no `..`, no slashes, not starting with `.` or `-`. -/
def validate_path_component (component : Str) (url : Str) :
    Except CacheError Unit :=
  if component.isEmpty then
    Except.error (CacheError.invalidUrl (str "Empty path component in URL: " ++ url))
  else if containsDD component then
    Except.error (CacheError.invalidUrl (str "Path traversal detected in URL: " ++ url))
  else if '/' ∈ component ∨ '\\' ∈ component then
    Except.error (CacheError.invalidUrl (str "Invalid characters in URL path component: " ++ url))
  else if component.head? = some '.' then
    Except.error (CacheError.invalidUrl (str "Path component cannot start with a dot: " ++ url))
  else if component.head? = some '-' then
    Except.error (CacheError.invalidUrl (str "Path component cannot start with a dash: " ++ url))
  else Except.ok ()

/-- The conditions under which `validate_path_component` succeeds, as a
decidable predicate on the component alone (the `url` argument is only used
for error messages). -/
def validComponent (component : Str) : Bool :=
  !component.isEmpty && !containsDD component &&
    !decide ('/' ∈ component) && !decide ('\\' ∈ component) &&
    !decide (component.head? = some '.') && !decide (component.head? = some '-')

/-- Rust `str::strip_prefix`: the remainder after a leading pattern. -/
def dropPre (pre s : Str) : Option Str :=
  if pre.isPrefixOf s then some (s.drop pre.length) else Option.none

/-- Worker for `trim_end_matches(".git")` on the reversed string: repeatedly
remove a leading `tig.` (the reversal of `.git`). -/
def stripGitRev : List Char → List Char
  | t :: i :: g :: d :: rest =>
    if t = 't' ∧ i = 'i' ∧ g = 'g' ∧ d = '.' then stripGitRev rest
    else t :: i :: g :: d :: rest
  | other => other

/-- Rust `str::trim_end_matches(".git")`: repeatedly remove a trailing
`.git` (cache.rs lines 214 and 236), implemented on the reversed string. -/
def stripDotGit (s : Str) : Str := (stripGitRev s.reverse).reverse

/-- Embedding of `CacheManager::parse_https_url` (cache.rs lines 195-221):
drop the protocol, split on `/`, take the second and third pieces (user and
repository), strip `.git` from the repository and validate both. -/
def parse_https_url (url : Str) : Except CacheError Str :=
  let without_protocol :=
    ((dropPre (str "https://") url).or (dropPre (str "http://") url)).getD url
  match splitChar '/' without_protocol with
  | _ :: user :: repo :: _ => do
    let repo := stripDotGit repo
    validate_path_component user url
    validate_path_component repo url
    Except.ok (user ++ str "/" ++ repo)
  | _ =>
    Except.error (CacheError.invalidUrl (str "URL must contain user and repository: " ++ url))

/-- Embedding of `CacheManager::parse_ssh_url` (cache.rs lines 224-255): drop
`git@`, take everything after the first colon, strip `.git`, and require
exactly a `user/repo` path. -/
def parse_ssh_url (url : Str) : Except CacheError Str :=
  match dropPre (str "git@") url with
  | Option.none =>
    Except.error (CacheError.invalidUrl (str "Invalid SSH URL format: " ++ url))
  | some without =>
    if ':' ∈ without then
      let path := (without.dropWhile (fun c => c ≠ ':')).drop 1
      let path := stripDotGit path
      match splitChar '/' path with
      | [user, repo] => do
        validate_path_component user url
        validate_path_component repo url
        Except.ok (user ++ str "/" ++ repo)
      | _ =>
        Except.error (CacheError.invalidUrl (str "SSH URL must contain user/repo path: " ++ url))
    else
      Except.error (CacheError.invalidUrl (str "SSH URL missing colon separator: " ++ url))

/-- Embedding of `CacheManager::parse_repo_path` (cache.rs lines 129-146). -/
def parse_repo_path (url : Str) : Except CacheError Str :=
  let url := trimAscii url
  if (str "https://").isPrefixOf url ∨ (str "http://").isPrefixOf url then
    parse_https_url url
  else if (str "git@").isPrefixOf url then parse_ssh_url url
  else
    Except.error (CacheError.invalidUrl (str "URL must start with https, http, or git@: " ++ url))

/-! ## Git operations and cache lifecycle (src/lppc-cli/src/mapping/repository.rs, mod.rs) -/

/-- Embedding of `GitError` (repository.rs lines 15-30). -/
inductive GitError
  | git (msg : Str)
  | notFound (path : Str)
  | networkUnreachable
  | gitNotInstalled
  | ioErr
deriving DecidableEq

/-- Whether `needle` occurs as a contiguous substring of `hay`. -/
def containsSub : Str → Str → Bool
  | [], needle => needle.isEmpty
  | c :: cs, needle => needle.isPrefixOf (c :: cs) || containsSub cs needle

/-- The phrases whose presence in lowercased git stderr marks a network
failure (repository.rs lines 266-274). -/
def network_phrases : List Str :=
  [str "could not resolve", str "failed to resolve", str "network",
    str "connection", str "timed out", str "unreachable", str "no address",
    str "dns", str "unable to access"]

/-- Embedding of `GitOperations::classify_error` (repository.rs lines
262-280): lowercase the message and return `NetworkUnreachable` when any of
the network phrases occurs, else a generic git error. -/
def classify_error (error_message : Str) : GitError :=
  let lower := lowerStr error_message
  if network_phrases.any (fun p => containsSub lower p) then
    GitError.networkUnreachable
  else GitError.git error_message

/-- Embedding of `MappingError` (mapping/mod.rs lines 28-37). -/
inductive MappingError
  | cacheErr (e : CacheError)
  | gitErr (e : GitError)
  | notAvailable (msg : Str)
deriving DecidableEq

/-- The environment of one `MappingRepository::ensure_available` run: the CLI
flag, the two cache probes, and the outcome the git subprocess would produce
if `try_update_or_clone` is invoked. -/
structure EnsureEnv where
  force_refresh : Bool
  is_cached : Bool
  needs_refresh : Bool
  git_result : Except GitError Unit

/-- Observable outcome of a successful `ensure_available` run:
`was_refreshed` as returned, whether `cache.update_timestamp` ran, and
whether the stale-cache warning was logged. -/
structure EnsureOutcome where
  was_refreshed : Bool
  timestamp_written : Bool
  warned_stale : Bool
deriving DecidableEq

/-- The `needs_update` decision of `ensure_available` (mapping/mod.rs lines
79-93): force refresh, or not cached, or the cache timestamp is stale. -/
def needsUpdate (env : EnsureEnv) : Bool :=
  if env.force_refresh then true
  else if !env.is_cached then true
  else env.needs_refresh

/-- Embedding of `MappingRepository::ensure_available` (mapping/mod.rs lines
69-129).  `needs_update` follows lines 79-93; the update attempt and its
error handling follow lines 95-122: on success the timestamp is written and
`was_refreshed` is true; a `NetworkUnreachable` failure with a cached copy
logs a warning and continues with the stale cache; any other failure is fatal,
as `NotAvailable` when no cached copy exists. -/
def ensure_available (env : EnsureEnv) : Except MappingError EnsureOutcome :=
  if needsUpdate env then
    match env.git_result with
    | Except.ok _ => Except.ok ⟨true, true, false⟩
    | Except.error GitError.networkUnreachable =>
      if env.is_cached then Except.ok ⟨false, false, true⟩
      else
        Except.error (MappingError.notAvailable
          (str "Cannot clone mapping repository and no cached version exists"))
    | Except.error e =>
      if !env.is_cached then
        Except.error (MappingError.notAvailable
          (str "Cannot clone mapping repository and no cached version exists"))
      else Except.error (MappingError.gitErr e)
  else Except.ok ⟨false, false, false⟩

/-! ## Claim theorems -/

/-- C1: the claim says the default `plain` output format prints each group's
permissions sorted ascending, one per line, with extension `txt`.  The code
cannot do this: `plain` is the default format, but `create_formatter`
(output/formatter.rs lines 52-62) has no arm for `OutputFormat::Plain` — and
output/mod.rs never compiles the orphaned plain.rs module that implements the
claimed behaviour — so selecting the plain format yields no formatter at
all. -/
theorem c1_plain_formatter_missing :
    defaultOutputFormat = OutputFormat.plain ∧
      create_formatter OutputFormat.plain = Option.none ∧
      plainFormat [str "s3:CreateBucket", str "ec2:DescribeInstances"] =
        str "ec2:DescribeInstances\ns3:CreateBucket" := by
  refine ⟨rfl, rfl, by decide⟩

/-- C8: when an update or clone is needed and the git operation fails with an
error classified as `NetworkUnreachable` while a cached copy exists,
`ensure_available` warns and returns the stale cache without writing the
timestamp; when a failure occurs with no cached copy it fails with the fatal
"not available" error; and the timestamp is written only after a fully
successful clone or update. -/
theorem c8_timestamp_and_offline_policy :
    (∀ env : EnsureEnv, needsUpdate env = true →
        env.git_result = Except.error GitError.networkUnreachable →
        env.is_cached = true →
        ensure_available env = Except.ok ⟨false, false, true⟩) ∧
    (∀ env : EnsureEnv, needsUpdate env = true →
        (∃ e, env.git_result = Except.error e) →
        env.is_cached = false →
        ensure_available env =
          Except.error (MappingError.notAvailable
            (str "Cannot clone mapping repository and no cached version exists"))) ∧
    (∀ (env : EnsureEnv) (out : EnsureOutcome),
        ensure_available env = Except.ok out →
        out.timestamp_written = true →
        env.git_result = Except.ok () ∧ needsUpdate env = true) := by
  refine ⟨?_, ?_, ?_⟩
  · intro env hup hnet hc
    simp [ensure_available, hup, hnet, hc]
  · intro env hup hex hc
    obtain ⟨e, he⟩ := hex
    cases e <;> simp [ensure_available, hup, he, hc]
  · intro env out h hts
    by_cases hup : needsUpdate env = true
    · refine ⟨?_, hup⟩
      cases hg : env.git_result with
      | ok u => cases u; rfl
      | error e =>
        exfalso
        rw [ensure_available, if_pos hup, hg] at h
        cases e with
        | networkUnreachable =>
          by_cases hc : env.is_cached = true
          · simp only [hc, if_true, Except.ok.injEq] at h
            rw [← h] at hts
            simp at hts
          · simp [hc] at h
        | git msg => by_cases hc : env.is_cached = true <;> simp [hc] at h
        | notFound p => by_cases hc : env.is_cached = true <;> simp [hc] at h
        | gitNotInstalled => by_cases hc : env.is_cached = true <;> simp [hc] at h
        | ioErr => by_cases hc : env.is_cached = true <;> simp [hc] at h
    · exfalso
      simp [ensure_available, hup] at h
      rw [← h] at hts
      simp at hts

/-- Witness for C8: the three parts of the policy applied at concrete
environments. -/
theorem c8_witness :
    ensure_available ⟨false, true, true, Except.error GitError.networkUnreachable⟩ =
        Except.ok ⟨false, false, true⟩ ∧
      ensure_available ⟨false, false, false, Except.error (GitError.git (str "kaput"))⟩ =
        Except.error (MappingError.notAvailable
          (str "Cannot clone mapping repository and no cached version exists")) ∧
      ((⟨true, true, false, Except.ok ()⟩ : EnsureEnv).git_result = Except.ok () ∧
        needsUpdate ⟨true, true, false, Except.ok ()⟩ = true) :=
  ⟨c8_timestamp_and_offline_policy.1 ⟨false, true, true, _⟩ rfl rfl rfl,
    c8_timestamp_and_offline_policy.2.1 ⟨false, false, false, _⟩ rfl
      ⟨GitError.git (str "kaput"), rfl⟩ rfl,
    c8_timestamp_and_offline_policy.2.2 ⟨true, true, false, Except.ok ()⟩
      ⟨true, true, false⟩ rfl rfl⟩

/-- Counterexample to C2 as stated: one declared provider `aws.dns` (alias
`dns`, a role ARN) and one block whose `provider_config_key` is the default
`aws`, which resolves to no declared provider.  The claim says the block must
then fall back to the group owning the `aws` key — there is none — and hence
be recorded in `unmapped_blocks`.  The code instead files the block under a
fresh `DefaultDeployer` group and leaves `unmapped_blocks` empty. -/
theorem c2_counterexample :
    (parse_directory_result
          [⟨str "aws.dns", some (str "dns"), some (str "arn:aws:iam::1:role/R")⟩]
          [⟨BlockType.resource, str "aws_s3_bucket", str "x", str "aws", [],
            str "aws_s3_bucket.x"⟩]).unmapped_blocks = [] ∧
      alookup (str "DefaultDeployer")
          (group_by_role
            [⟨str "aws.dns", some (str "dns"), some (str "arn:aws:iam::1:role/R")⟩]
            [⟨BlockType.resource, str "aws_s3_bucket", str "x", str "aws", [],
              str "aws_s3_bucket.x"⟩]) =
        some ⟨str "DefaultDeployer", Option.none,
          [⟨BlockType.resource, str "aws_s3_bucket", str "x", str "aws", [],
            str "aws_s3_bucket.x"⟩]⟩ ∧
      str "aws" ≠ str "aws.dns" := by
  refine ⟨rfl, by decide, by decide⟩

/-- Pushing a block into its group makes it a member of that group. -/
theorem pushIntoGroup_mem_self (groups : List (Str × ProviderGroup))
    (name : Str) (role : Option Str) (b : TerraformBlock) :
    ∃ g, alookup name (pushIntoGroup groups name role b) = some g ∧
      b ∈ g.blocks := by
  unfold pushIntoGroup
  cases h : alookup name groups with
  | some g =>
    exact ⟨⟨g.output_name, g.role_arn, g.blocks ++ [b]⟩,
      alookup_ainsert groups name _, by simp⟩
  | none =>
    refine ⟨⟨name, role, [b]⟩, ?_, by simp⟩
    rw [alookup_append, h]
    simp [alookup]

/-- Pushing a block preserves the membership of previously filed blocks. -/
theorem pushIntoGroup_mem_past {groups : List (Str × ProviderGroup)}
    {n : Str} {g : ProviderGroup} {b' : TerraformBlock}
    (hg : alookup n groups = some g) (hb : b' ∈ g.blocks)
    (name : Str) (role : Option Str) (b : TerraformBlock) :
    ∃ g', alookup n (pushIntoGroup groups name role b) = some g' ∧
      b' ∈ g'.blocks := by
  unfold pushIntoGroup
  by_cases hn : name = n
  · subst hn
    rw [hg]
    exact ⟨⟨g.output_name, g.role_arn, g.blocks ++ [b]⟩,
      alookup_ainsert groups name _, by simp [hb]⟩
  · cases h : alookup name groups with
    | some g₀ =>
      refine ⟨g, ?_, hb⟩
      rw [alookup_ainsert_ne groups _ hn, hg]
    | none =>
      refine ⟨g, ?_, hb⟩
      rw [alookup_append, hg]
      rfl

/-- After folding the block loop over `bs`, every block of `bs` (and every
block already filed) is a member of the group selected by its output name. -/
theorem gbr_fold_mem (providers : List ParsedProvider)
    (bs : List TerraformBlock) (groups : List (Str × ProviderGroup))
    (b : TerraformBlock)
    (h : b ∈ bs ∨ ∃ g, alookup (block_output_name providers b) groups = some g ∧
      b ∈ g.blocks) :
    ∃ g, alookup (block_output_name providers b)
        (bs.foldl (gbrStep providers) groups) = some g ∧ b ∈ g.blocks := by
  induction bs generalizing groups with
  | nil =>
    rcases h with h | h
    · cases h
    · exact h
  | cons b' rest ih =>
    rcases h with h | h
    · rcases List.mem_cons.mp h with rfl | hmem
      · exact ih _ (Or.inr (pushIntoGroup_mem_self groups _ _ b))
      · exact ih _ (Or.inl hmem)
    · obtain ⟨g, hg, hb⟩ := h
      exact ih _ (Or.inr (pushIntoGroup_mem_past hg hb _ _ b'))

/-- C2 as amended: each parsed block is filed under the output name derived
from the role of the provider declared with its `provider_config_key`; a key
that resolves to no declared provider is treated as role `None`, whose group
name defaults to `"DefaultDeployer"` when no role-less provider exists; and
directory parsing never records a block as unmapped. -/
theorem c2_grouping_fallback (providers : List ParsedProvider)
    (blocks : List TerraformBlock) (b : TerraformBlock) (hb : b ∈ blocks) :
    (parse_directory_result providers blocks).unmapped_blocks = [] ∧
      ∃ g, alookup (block_output_name providers b)
          (group_by_role providers blocks) = some g ∧ b ∈ g.blocks :=
  ⟨rfl, gbr_fold_mem providers blocks [] b (Or.inl hb)⟩

/-- Witness for the amended C2: a block with an unresolvable provider key is
filed under `DefaultDeployer` and not recorded as unmapped. -/
theorem c2_grouping_fallback_witness :
    (parse_directory_result
          [⟨str "aws.billing", some (str "billing"), some (str "arn:r")⟩]
          [⟨BlockType.data, str "aws_caller_identity", str "me", str "aws.typo",
            [], str "data.aws_caller_identity.me"⟩]).unmapped_blocks = [] ∧
      ∃ g, alookup (block_output_name
            [⟨str "aws.billing", some (str "billing"), some (str "arn:r")⟩]
            ⟨BlockType.data, str "aws_caller_identity", str "me", str "aws.typo",
              [], str "data.aws_caller_identity.me"⟩)
          (group_by_role
            [⟨str "aws.billing", some (str "billing"), some (str "arn:r")⟩]
            [⟨BlockType.data, str "aws_caller_identity", str "me", str "aws.typo",
              [], str "data.aws_caller_identity.me"⟩]) = some g ∧
        (⟨BlockType.data, str "aws_caller_identity", str "me", str "aws.typo",
          [], str "data.aws_caller_identity.me"⟩ : TerraformBlock) ∈ g.blocks :=
  c2_grouping_fallback _ _ _ (List.mem_singleton.mpr rfl)

/-- Membership after a set insert comes from the set or the new element. -/
theorem mem_insertSet {s : List Str} {x a : Str} (h : a ∈ insertSet s x) :
    a ∈ s ∨ a = x := by
  unfold insertSet at h
  by_cases hx : x ∈ s
  · rw [if_pos hx] at h
    exact Or.inl h
  · rw [if_neg hx] at h
    rcases List.mem_append.mp h with h | h
    · exact Or.inl h
    · exact Or.inr (List.mem_singleton.mp h)

/-- A set insert keeps the old elements. -/
theorem insertSet_mono {s : List Str} (x : Str) : s ⊆ insertSet s x := by
  unfold insertSet
  by_cases hx : x ∈ s
  · rw [if_pos hx]
    exact fun _ h => h
  · rw [if_neg hx]
    exact List.subset_append_left s [x]

/-- A set insert contains the new element. -/
theorem mem_insertSet_self (s : List Str) (x : Str) : x ∈ insertSet s x := by
  unfold insertSet
  by_cases hx : x ∈ s
  · rw [if_pos hx]; exact hx
  · rw [if_neg hx]; simp

/-- Membership after inserting a whole list. -/
theorem mem_insertAll : ∀ (l s : List Str) {a : Str}, a ∈ insertAll s l →
    a ∈ s ∨ a ∈ l
  | [], _, _, h => Or.inl h
  | x :: rest, s, a, h => by
    rcases mem_insertAll rest (insertSet s x) h with h' | h'
    · rcases mem_insertSet h' with h'' | h''
      · exact Or.inl h''
      · exact Or.inr (by simp [h''])
    · exact Or.inr (List.mem_cons_of_mem x h')

/-- Inserting a list keeps the old elements. -/
theorem insertAll_mono : ∀ (l s : List Str), s ⊆ insertAll s l
  | [], _ => fun _ h => h
  | x :: rest, s =>
    fun _a ha => insertAll_mono rest (insertSet s x) (insertSet_mono x ha)

/-- Inserting a list adds all its elements. -/
theorem subset_insertAll : ∀ (l s : List Str), l ⊆ insertAll s l
  | [], _ => fun _ h => (List.not_mem_nil _ h).elim
  | x :: rest, s => by
    intro a ha
    rcases List.mem_cons.mp ha with rfl | ha'
    · exact insertAll_mono rest (insertSet s a) (mem_insertSet_self s a)
    · exact subset_insertAll rest (insertSet s x) ha'

/-- The `(kind, type_name)` key under which missing mappings are
deduplicated. -/
def matchKey (m : MissingMapping) : BlockType × Str :=
  (m.block_type, m.type_name)

/-- Invariant of the missing-mapping bookkeeping: keys are pairwise distinct,
every recorded key has been marked seen, and every recorded path has the
`mappings/<provider>/<kind>/<type>.yaml` shape. -/
def MatchInv (st : MatchState) : Prop :=
  (st.missing_mappings.map matchKey).Nodup ∧
    (∀ m ∈ st.missing_mappings, matchKey m ∈ st.seen_types) ∧
    (∀ m ∈ st.missing_mappings,
      m.expected_path = str "mappings/" ++ matcher_provider m.type_name ++
        str "/" ++ m.block_type.as_str ++ str "/" ++ m.type_name ++ str ".yaml")

/-- Processing one block preserves the bookkeeping invariant. -/
theorem process_block_inv (f : Loader) (st : MatchState)
    (acc : GroupPermissions) (b : TerraformBlock) (h : MatchInv st) :
    MatchInv (process_block f st acc b).2 := by
  cases hf : f (matcher_provider b.type_name) b.block_type b.type_name with
  | some mp =>
    simp only [process_block, hf]
    exact h
  | none =>
    simp only [process_block, hf]
    by_cases hseen : (b.block_type, b.type_name) ∈ st.seen_types
    · rw [if_pos hseen]
      exact h
    · rw [if_neg hseen]
      obtain ⟨hnd, hin, hpath⟩ := h
      refine ⟨?_, ?_, ?_⟩
      · rw [List.map_append]
        rw [List.nodup_append]
        refine ⟨hnd, List.nodup_singleton _, ?_⟩
        intro k hk hk'
        simp only [List.map_cons, List.map_nil, List.mem_singleton, matchKey] at hk'
        subst hk'
        obtain ⟨m, hm, hkey⟩ := List.mem_map.mp hk
        exact hseen (hkey ▸ hin m hm)
      · intro m hm
        rcases List.mem_append.mp hm with hm' | hm'
        · exact List.mem_append_left _ (hin m hm')
        · rw [List.mem_singleton.mp hm']
          exact List.mem_append_right _ (by simp [matchKey])
      · intro m hm
        rcases List.mem_append.mp hm with hm' | hm'
        · exact hpath m hm'
        · rw [List.mem_singleton.mp hm']

/-- Folding the block loop preserves the bookkeeping invariant. -/
theorem foldl_process_block_inv (f : Loader) (bs : List TerraformBlock) :
    ∀ p : GroupPermissions × MatchState, MatchInv p.2 →
      MatchInv (bs.foldl (fun p b => process_block f p.2 p.1 b) p).2 := by
  induction bs with
  | nil => exact fun _ h => h
  | cons b rest ih =>
    intro p h
    exact ih _ (process_block_inv f p.2 p.1 b h)

/-- Resolving one provider group preserves the bookkeeping invariant. -/
theorem process_group_inv (f : Loader) (st : MatchState)
    (bs : List TerraformBlock) (h : MatchInv st) :
    MatchInv (process_group f st bs).2 :=
  foldl_process_block_inv f bs (⟨[], []⟩, st) h

/-- The state component of a provider-group step is the state after
resolving the group's blocks, whether or not the group is kept. -/
theorem resolveGroupStep_snd (f : Loader)
    (acc : List (Str × GroupPermissions) × MatchState)
    (entry : Str × ProviderGroup) :
    (resolveGroupStep f acc entry).2 =
      (process_group f acc.2 entry.2.blocks).2 := by
  simp only [resolveGroupStep]
  split <;> rfl

/-- Folding the provider-group loop preserves the bookkeeping invariant. -/
theorem foldl_resolveGroupStep_inv (f : Loader)
    (entries : List (Str × ProviderGroup)) :
    ∀ acc : List (Str × GroupPermissions) × MatchState, MatchInv acc.2 →
      MatchInv (entries.foldl (resolveGroupStep f) acc).2 := by
  induction entries with
  | nil => exact fun _ h => h
  | cons e rest ih =>
    intro acc h
    apply ih
    rw [resolveGroupStep_snd]
    exact process_group_inv f acc.2 e.2.blocks h

/-- The bookkeeping invariant holds for the state of a whole resolve run. -/
theorem resolve_inv (f : Loader) (cfg : TerraformConfig) :
    MatchInv (cfg.provider_groups.foldl (resolveGroupStep f) ([], ⟨[], []⟩)).2 :=
  foldl_resolveGroupStep_inv f cfg.provider_groups ([], ⟨[], []⟩)
    ⟨List.nodup_nil, fun _ hm => (List.not_mem_nil _ hm).elim,
      fun _ hm => (List.not_mem_nil _ hm).elim⟩

/-- C7: across a whole run of the permission matcher, the missing-mapping
list contains at most one entry per `(kind, type_name)` pair — the projection
to keys is duplicate-free — even when blocks of that kind and type appear in
several provider groups, because the `seen_types` set is shared across the
group loop. -/
theorem c7_missing_mappings_unique (f : Loader) (cfg : TerraformConfig) :
    ((PermissionMatcher.resolve f cfg).missing_mappings.map matchKey).Nodup :=
  (resolve_inv f cfg).1

/-- The provider as the spec words it: the first underscore-separated segment
of the type name, or `"unknown"` when there is none. -/
def first_segment_or_unknown (type_name : Str) : Str :=
  if type_name.takeWhile (fun c => c ≠ '_') = [] then str "unknown"
  else type_name.takeWhile (fun c => c ≠ '_')

/-- The matcher's provider (split-based, from the source) coincides with the
spec's wording (longest underscore-free leading segment, or unknown). -/
theorem matcher_provider_eq_first_segment (tn : Str) :
    matcher_provider tn = first_segment_or_unknown tn := by
  unfold matcher_provider extract_provider first_segment_or_unknown
  rw [splitChar_head]
  cases htw : tn.takeWhile (fun c => c ≠ '_') with
  | nil => simp [Option.filter]
  | cons c rest => simp [Option.filter]

/-- C3: every missing mapping recorded by the permission matcher has an
`expected_path` built from the first underscore-separated segment of the
block's type name (or `"unknown"` if there is none), the block kind, and the
type name. -/
theorem c3_missing_mapping_provider (f : Loader) (cfg : TerraformConfig)
    (m : MissingMapping)
    (hm : m ∈ (PermissionMatcher.resolve f cfg).missing_mappings) :
    m.expected_path = str "mappings/" ++ first_segment_or_unknown m.type_name ++
      str "/" ++ m.block_type.as_str ++ str "/" ++ m.type_name ++ str ".yaml" := by
  have h := (resolve_inv f cfg).2.2 m hm
  rw [h, matcher_provider_eq_first_segment]

/-- Witness for C3: a run against an empty mapping repository records
`aws_s3_bucket` with the path derived from its `aws` prefix. -/
theorem c3_witness :
    (⟨BlockType.resource, str "aws_s3_bucket",
        str "mappings/aws/resource/aws_s3_bucket.yaml"⟩ : MissingMapping).expected_path =
      str "mappings/" ++ first_segment_or_unknown (str "aws_s3_bucket") ++
        str "/" ++ BlockType.resource.as_str ++ str "/" ++ str "aws_s3_bucket" ++
        str ".yaml" :=
  c3_missing_mapping_provider (fun _ _ _ => Option.none)
    ⟨[(str "TestDeployer",
        ⟨str "TestDeployer", Option.none,
          [⟨BlockType.resource, str "aws_s3_bucket", str "x", str "aws", [],
            str "aws_s3_bucket.x"⟩]⟩)], []⟩
    ⟨BlockType.resource, str "aws_s3_bucket",
      str "mappings/aws/resource/aws_s3_bucket.yaml"⟩ (by decide)

/-- A true keep-the-group condition means a nonempty allow or deny set. -/
theorem nonempty_of_keep {g : GroupPermissions}
    (hc : (!g.allow.isEmpty || !g.deny.isEmpty) = true) :
    g.allow ≠ [] ∨ g.deny ≠ [] := by
  by_cases ha : g.allow = []
  · by_cases hd : g.deny = []
    · exfalso
      rw [ha, hd] at hc
      simp at hc
    · exact Or.inr hd
  · exact Or.inl ha

/-- Folding the provider-group loop only ever inserts groups with a nonempty
allow or deny set. -/
theorem foldl_resolveGroupStep_groups (f : Loader)
    (entries : List (Str × ProviderGroup)) :
    ∀ acc : List (Str × GroupPermissions) × MatchState,
      (∀ p ∈ acc.1, p.2.allow ≠ [] ∨ p.2.deny ≠ []) →
      ∀ p ∈ (entries.foldl (resolveGroupStep f) acc).1,
        p.2.allow ≠ [] ∨ p.2.deny ≠ [] := by
  induction entries with
  | nil => exact fun _ h => h
  | cons e rest ih =>
    intro acc h
    apply ih
    intro p hp
    by_cases hc : (!(process_group f acc.2 e.2.blocks).1.allow.isEmpty ||
        !(process_group f acc.2 e.2.blocks).1.deny.isEmpty) = true
    · rw [show (resolveGroupStep f acc e).1 =
          insertGroup acc.1 e.1 (process_group f acc.2 e.2.blocks).1 from by
        simp only [resolveGroupStep]
        rw [if_pos hc]] at hp
      unfold insertGroup at hp
      rcases mem_ainsert hp with h2 | h2
      · rw [h2]
        exact nonempty_of_keep hc
      · exact h p h2
    · rw [show (resolveGroupStep f acc e).1 = acc.1 from by
        simp only [resolveGroupStep]
        rw [if_neg hc]] at hp
      exact h p hp

/-- C10: every group in the matcher's result has a nonempty allow set or a
nonempty deny set; a provider group none of whose blocks resolves to any
action is omitted from the result map entirely. -/
theorem c10_result_groups_nonempty (f : Loader) (cfg : TerraformConfig) :
    ∀ p ∈ (PermissionMatcher.resolve f cfg).groups,
      p.2.allow ≠ [] ∨ p.2.deny ≠ [] :=
  fun p hp =>
    foldl_resolveGroupStep_groups f cfg.provider_groups ([], ⟨[], []⟩)
      (fun q hq => (List.not_mem_nil q hq).elim) p hp

/-- Witness for C10: a one-group run whose block resolves to one allow
action. -/
theorem c10_witness :
    ((str "TestDeployer", (⟨[str "s3:CreateBucket"], []⟩ : GroupPermissions)) :
        Str × GroupPermissions).2.allow ≠ [] ∨
      ((str "TestDeployer", (⟨[str "s3:CreateBucket"], []⟩ : GroupPermissions)) :
        Str × GroupPermissions).2.deny ≠ [] :=
  c10_result_groups_nonempty
    (fun _ _ _ => some ⟨[str "s3:CreateBucket"], [], ConditionalActions.none⟩)
    ⟨[(str "TestDeployer",
        ⟨str "TestDeployer", Option.none,
          [⟨BlockType.resource, str "aws_s3_bucket", str "x", str "aws", [],
            str "aws_s3_bucket.x"⟩]⟩)], []⟩
    (str "TestDeployer", ⟨[str "s3:CreateBucket"], []⟩) (by decide)

/-- `LeafAt t path acts`: the conditional tree `t` has an `Actions` leaf
holding `acts` at the attribute path `path`. -/
inductive LeafAt : ConditionalActions → List Str → List Str → Prop
  | here (acts : List Str) : LeafAt (ConditionalActions.actions acts) [] acts
  | nest {m : List (Str × ConditionalActions)} {k : Str}
      {t : ConditionalActions} {path : List Str} {acts : List Str} :
      (k, t) ∈ m → LeafAt t path acts →
      LeafAt (ConditionalActions.nested m) (k :: path) acts

/-- A leaf of a tail of entries is a leaf of the whole entry list. -/
theorem LeafAt.lift {e : Str × ConditionalActions}
    {rest : List (Str × ConditionalActions)} {path acts : List Str}
    (h : LeafAt (ConditionalActions.nested rest) path acts) :
    LeafAt (ConditionalActions.nested (e :: rest)) path acts := by
  cases h with
  | nest hk ht => exact LeafAt.nest (List.mem_cons_of_mem e hk) ht

/-- Necessity direction of conditional resolution, generalised over the
current path: an action can only be resolved out of an entry list when it
sits on a leaf all of whose nonempty path prefixes (extended by the current
path) are present. -/
theorem resolveEntries_necessity (present : List (List Str)) :
    ∀ (entries : List (Str × ConditionalActions)) (cur : List Str) (a : Str),
      a ∈ resolveEntries present entries cur →
      ∃ path acts, LeafAt (ConditionalActions.nested entries) path acts ∧
        a ∈ acts ∧ ∀ q, q ≠ [] → q <+: path → cur ++ q ∈ present
  | [], cur, a, h => by
    unfold resolveEntries at h
    exact absurd h (List.not_mem_nil a)
  | (k, v) :: rest, cur, a, h => by
    unfold resolveEntries at h
    rcases List.mem_append.mp h with hl | hr
    · by_cases hp : cur ++ [k] ∈ present
      · rw [if_pos hp] at hl
        cases v with
        | actions acts =>
          refine ⟨[k], acts,
            LeafAt.nest (List.mem_cons_self _ _) (LeafAt.here acts), hl, ?_⟩
          intro q hq hpre
          obtain ⟨t, ht⟩ := hpre
          cases q with
          | nil => exact absurd rfl hq
          | cons c q' =>
            obtain ⟨hc, h2⟩ := List.cons_eq_cons.mp ht
            have hq' : q' = [] := (List.append_eq_nil.mp h2).1
            rw [hc, hq']
            exact hp
        | nested m2 =>
          obtain ⟨path, acts, hleaf, ha, hpre⟩ :=
            resolveEntries_necessity present m2 (cur ++ [k]) a hl
          refine ⟨k :: path, acts,
            LeafAt.nest (List.mem_cons_self _ _) hleaf, ha, ?_⟩
          intro q hq hqpre
          obtain ⟨t, ht⟩ := hqpre
          cases q with
          | nil => exact absurd rfl hq
          | cons c q' =>
            obtain ⟨hc, hq'⟩ := List.cons_eq_cons.mp ht
            by_cases hq0 : q' = []
            · rw [hc, hq0]
              exact hp
            · have hsplit : cur ++ (c :: q') = (cur ++ [c]) ++ q' := by simp
              rw [hsplit, hc]
              exact hpre q' hq0 ⟨t, hq'⟩
        | none => exact absurd hl (List.not_mem_nil a)
      · rw [if_neg hp] at hl
        exact absurd hl (List.not_mem_nil a)
    · obtain ⟨path, acts, hleaf, ha, hpre⟩ :=
        resolveEntries_necessity present rest cur a hr
      exact ⟨path, acts, hleaf.lift, ha, hpre⟩

/-- Deny permissions out of one block step come from the starting set or from
the loaded mapping's deny list. -/
theorem process_block_deny (f : Loader) (st : MatchState)
    (acc : GroupPermissions) (b : TerraformBlock) {a : Str}
    (h : a ∈ (process_block f st acc b).1.deny) :
    a ∈ acc.deny ∨ ∃ mp,
      f (matcher_provider b.type_name) b.block_type b.type_name = some mp ∧
      a ∈ mp.deny := by
  cases hf : f (matcher_provider b.type_name) b.block_type b.type_name with
  | some mp =>
    simp only [process_block, hf] at h
    rcases mem_insertAll mp.deny acc.deny h with h' | h'
    · exact Or.inl h'
    · exact Or.inr ⟨mp, rfl, h'⟩
  | none =>
    simp only [process_block, hf] at h
    by_cases hs : (b.block_type, b.type_name) ∈ st.seen_types
    · rw [if_pos hs] at h
      exact Or.inl h
    · rw [if_neg hs] at h
      exact Or.inl h

/-- One block step never shrinks the allow set. -/
theorem process_block_allow_mono (f : Loader) (st : MatchState)
    (acc : GroupPermissions) (b : TerraformBlock) :
    acc.allow ⊆ (process_block f st acc b).1.allow := by
  cases hf : f (matcher_provider b.type_name) b.block_type b.type_name with
  | some mp =>
    simp only [process_block, hf]
    exact fun a ha =>
      insertAll_mono _ _ (insertAll_mono mp.allow acc.allow ha)
  | none =>
    simp only [process_block, hf]
    by_cases hs : (b.block_type, b.type_name) ∈ st.seen_types
    · rw [if_pos hs]
      exact fun _ ha => ha
    · rw [if_neg hs]
      exact fun _ ha => ha

/-- A matched block's resolved conditional actions enter the allow set. -/
theorem process_block_allow_cond (f : Loader) (st : MatchState)
    (acc : GroupPermissions) (b : TerraformBlock) (mp : ActionMapping)
    (hf : f (matcher_provider b.type_name) b.block_type b.type_name = some mp)
    {a : Str} (ha : a ∈ mp.conditional.resolve b.present_attributes) :
    a ∈ (process_block f st acc b).1.allow := by
  simp only [process_block, hf]
  exact subset_insertAll _ _ ha

/-- The block fold never shrinks the allow set. -/
theorem foldl_blocks_allow_mono (f : Loader) (bs : List TerraformBlock) :
    ∀ p : GroupPermissions × MatchState,
      p.1.allow ⊆ (bs.foldl (fun p b => process_block f p.2 p.1 b) p).1.allow := by
  induction bs with
  | nil => exact fun _ _ ha => ha
  | cons b rest ih =>
    intro p a ha
    exact ih _ (process_block_allow_mono f p.2 p.1 b ha)

/-- A matched block's resolved conditional actions survive the whole block
fold. -/
theorem foldl_blocks_allow_cond (f : Loader) (bs : List TerraformBlock) :
    ∀ (p : GroupPermissions × MatchState) (b : TerraformBlock), b ∈ bs →
      ∀ mp, f (matcher_provider b.type_name) b.block_type b.type_name = some mp →
      ∀ a ∈ mp.conditional.resolve b.present_attributes,
        a ∈ (bs.foldl (fun p b => process_block f p.2 p.1 b) p).1.allow := by
  induction bs with
  | nil => exact fun _ b hb => absurd hb (List.not_mem_nil b)
  | cons b' rest ih =>
    intro p b hb mp hf a ha
    rcases List.mem_cons.mp hb with rfl | hb'
    · exact foldl_blocks_allow_mono f rest _
        (process_block_allow_cond f p.2 p.1 b mp hf ha)
    · exact ih _ b hb' mp hf a ha

/-- Deny permissions out of the block fold come from the starting set or from
some block's loaded mapping. -/
theorem foldl_blocks_deny (f : Loader) (bs : List TerraformBlock) :
    ∀ (p : GroupPermissions × MatchState) {a : Str},
      a ∈ (bs.foldl (fun p b => process_block f p.2 p.1 b) p).1.deny →
      a ∈ p.1.deny ∨ ∃ b ∈ bs, ∃ mp,
        f (matcher_provider b.type_name) b.block_type b.type_name = some mp ∧
        a ∈ mp.deny := by
  induction bs with
  | nil =>
    intro p a h
    exact Or.inl h
  | cons b rest ih =>
    intro p a h
    rcases ih _ h with h' | ⟨b', hb', mp, hf, hd⟩
    · rcases process_block_deny f p.2 p.1 b h' with h'' | ⟨mp, hf, hd⟩
      · exact Or.inl h''
      · exact Or.inr ⟨b, List.mem_cons_self b rest, mp, hf, hd⟩
    · exact Or.inr ⟨b', List.mem_cons_of_mem b hb', mp, hf, hd⟩

/-- C4: (i) conditional resolution yields an action only when it sits on a
leaf of the tree every nonempty prefix of whose path is present in the block;
(ii) every resolved conditional action of a matched block is added to the
group's allow set; (iii) the group's deny set holds only actions from some
mapping's deny list — conditional actions are never treated as deny. -/
theorem c4_conditional_actions :
    (∀ (t : ConditionalActions) (present : List (List Str)) (a : Str),
        a ∈ t.resolve present →
        ∃ path acts, LeafAt t path acts ∧ a ∈ acts ∧
          ∀ q, q ≠ [] → q <+: path → q ∈ present) ∧
    (∀ (f : Loader) (st : MatchState) (bs : List TerraformBlock)
        (b : TerraformBlock), b ∈ bs →
        ∀ mp, f (matcher_provider b.type_name) b.block_type b.type_name = some mp →
        ∀ a ∈ mp.conditional.resolve b.present_attributes,
          a ∈ (process_group f st bs).1.allow) ∧
    (∀ (f : Loader) (st : MatchState) (bs : List TerraformBlock) (a : Str),
        a ∈ (process_group f st bs).1.deny →
        ∃ b ∈ bs, ∃ mp,
          f (matcher_provider b.type_name) b.block_type b.type_name = some mp ∧
          a ∈ mp.deny) := by
  refine ⟨?_, ?_, ?_⟩
  · intro t present a h
    cases t with
    | none => simp [ConditionalActions.resolve, resolveRecursive] at h
    | actions acts =>
      refine ⟨[], acts, LeafAt.here acts, ?_, ?_⟩
      · simp only [ConditionalActions.resolve, resolveRecursive] at h
        by_cases hp : ([] : List Str) ∈ present
        · rw [if_pos hp] at h
          exact h
        · rw [if_neg hp] at h
          exact absurd h (List.not_mem_nil a)
      · intro q hq hpre
        exact absurd (List.prefix_nil.mp hpre) hq
    | nested m =>
      obtain ⟨path, acts, hleaf, ha, hpre⟩ :=
        resolveEntries_necessity present m [] a h
      exact ⟨path, acts, hleaf, ha,
        fun q hq hp => by simpa using hpre q hq hp⟩
  · intro f st bs b hb mp hf a ha
    exact foldl_blocks_allow_cond f bs (⟨[], []⟩, st) b hb mp hf a ha
  · intro f st bs a h
    rcases foldl_blocks_deny f bs (⟨[], []⟩, st) h with h' | h'
    · exact absurd h' (List.not_mem_nil a)
    · exact h'

/-- Witness for C4: the nested `vpc.vpc_id` conditional resolves through a
leaf with all prefixes present; a resolved `tags` conditional action lands in
the group allow set; and a deny action traces back to the mapping's deny
list. -/
theorem c4_witness :
    (∃ path acts,
        LeafAt
          (ConditionalActions.nested
            [(str "vpc",
              ConditionalActions.nested
                [(str "vpc_id",
                  ConditionalActions.actions
                    [str "route53:AssociateVPCWithHostedZone"])])])
          path acts ∧
        str "route53:AssociateVPCWithHostedZone" ∈ acts ∧
        ∀ q, q ≠ [] → q <+: path →
          q ∈ [[str "vpc"], [str "vpc", str "vpc_id"]]) ∧
      str "s3:PutBucketTagging" ∈
        (process_group
          (fun _ _ _ =>
            some ⟨[], [],
              ConditionalActions.nested
                [(str "tags",
                  ConditionalActions.actions [str "s3:PutBucketTagging"])]⟩)
          ⟨[], []⟩
          [⟨BlockType.resource, str "aws_s3_bucket", str "x", str "aws",
            [[str "tags"]], str "aws_s3_bucket.x"⟩]).1.allow ∧
      (∃ b ∈ [(⟨BlockType.resource, str "aws_s3_bucket", str "x", str "aws",
            [], str "aws_s3_bucket.x"⟩ : TerraformBlock)], ∃ mp,
        (fun _ _ _ =>
            some (⟨[], [str "s3:GetObject"], ConditionalActions.none⟩ :
              ActionMapping) : Loader)
            (matcher_provider b.type_name) b.block_type b.type_name = some mp ∧
          str "s3:GetObject" ∈ mp.deny) :=
  ⟨c4_conditional_actions.1
      (ConditionalActions.nested
        [(str "vpc",
          ConditionalActions.nested
            [(str "vpc_id",
              ConditionalActions.actions
                [str "route53:AssociateVPCWithHostedZone"])])])
      [[str "vpc"], [str "vpc", str "vpc_id"]]
      (str "route53:AssociateVPCWithHostedZone")
      (by
        unfold ConditionalActions.resolve resolveRecursive
        unfold resolveEntries
        simp
        left
        unfold resolveEntries
        simp),
    c4_conditional_actions.2.1
      (fun _ _ _ =>
        some ⟨[], [],
          ConditionalActions.nested
            [(str "tags",
              ConditionalActions.actions [str "s3:PutBucketTagging"])]⟩)
      ⟨[], []⟩
      [⟨BlockType.resource, str "aws_s3_bucket", str "x", str "aws",
        [[str "tags"]], str "aws_s3_bucket.x"⟩]
      ⟨BlockType.resource, str "aws_s3_bucket", str "x", str "aws",
        [[str "tags"]], str "aws_s3_bucket.x"⟩
      (by decide) _ rfl (str "s3:PutBucketTagging")
      (by
        unfold ConditionalActions.resolve resolveRecursive
        unfold resolveEntries
        simp),
    c4_conditional_actions.2.2
      (fun _ _ _ =>
        some (⟨[], [str "s3:GetObject"], ConditionalActions.none⟩ :
          ActionMapping))
      ⟨[], []⟩
      [⟨BlockType.resource, str "aws_s3_bucket", str "x", str "aws",
        [], str "aws_s3_bucket.x"⟩]
      (str "s3:GetObject") (by decide)⟩

/-- A lookup is `none` exactly when the key is absent. -/
theorem alookup_eq_none {α β : Type} [DecidableEq α] (k : α)
    (m : List (α × β)) :
    alookup k m = Option.none ↔ k ∉ m.map (fun p => p.1) := by
  induction m with
  | nil => simp [alookup]
  | cons p rest ih =>
    by_cases h : p.1 = k
    · simp [alookup, h]
    · simp only [alookup, h, if_false]
      rw [ih, List.map_cons]
      constructor
      · intro hk hmem
        rcases List.mem_cons.mp hmem with h1 | h1
        · exact h h1.symm
        · exact hk h1
      · intro hk h1
        exact hk (List.mem_cons_of_mem _ h1)

/-- Adding to a bucket of another key leaves a lookup unchanged. -/
theorem alookup_bucketAdd_ne {α β : Type} [DecidableEq α]
    (m : List (α × List β)) {k s : α} (v : β) (h : k ≠ s) :
    alookup s (bucketAdd m k v) = alookup s m := by
  unfold bucketAdd
  cases hb : alookup k m with
  | some b => exact alookup_ainsert_ne m _ h
  | none =>
    rw [alookup_append]
    simp [alookup, h]

/-- Adding to an existing bucket appends to it. -/
theorem alookup_bucketAdd_some {α β : Type} [DecidableEq α]
    (m : List (α × List β)) {k : α} {b : List β} (v : β)
    (hb : alookup k m = some b) :
    alookup k (bucketAdd m k v) = some (b ++ [v]) := by
  unfold bucketAdd
  rw [hb]
  exact alookup_ainsert m k (b ++ [v])

/-- Adding to a fresh key creates a singleton bucket. -/
theorem alookup_bucketAdd_none {α β : Type} [DecidableEq α]
    (m : List (α × List β)) {k : α} (v : β)
    (hb : alookup k m = Option.none) :
    alookup k (bucketAdd m k v) = some [v] := by
  unfold bucketAdd
  rw [hb, alookup_append, hb]
  simp [alookup]

/-- The keys of a replace-style insert are unchanged. -/
theorem keys_map_replace {α β : Type} [DecidableEq α] (m : List (α × β))
    (k : α) (v : β) :
    ((m.map (fun p => if p.1 = k then (p.1, v) else p)).map (fun p => p.1)) =
      m.map (fun p => p.1) := by
  rw [List.map_map]
  apply List.map_congr_left
  intro p _
  by_cases h : p.1 = k <;> simp [h]

/-- The keys after a bucket add: unchanged for a known key, the key appended
for a fresh one. -/
theorem keys_bucketAdd {α β : Type} [DecidableEq α] (m : List (α × List β))
    (k : α) (v : β) :
    (bucketAdd m k v).map (fun p => p.1) =
      if (alookup k m).isSome then m.map (fun p => p.1)
      else m.map (fun p => p.1) ++ [k] := by
  unfold bucketAdd
  cases hb : alookup k m with
  | some b =>
    simp only [Option.isSome_some, if_true, ainsert, hb]
    exact keys_map_replace m k (b ++ [v])
  | none => simp

/-- Folding bucket adds keeps the bucket keys duplicate-free. -/
theorem buildBuckets_go_nodup (perms : List Str) :
    ∀ acc : List (Str × List Str), (acc.map (fun p => p.1)).Nodup →
      (((perms.foldl (fun g p => bucketAdd g (serviceOf p) p) acc)).map
        (fun p => p.1)).Nodup := by
  induction perms with
  | nil => exact fun _ h => h
  | cons p rest ih =>
    intro acc h
    apply ih
    rw [keys_bucketAdd]
    cases hb : alookup (serviceOf p) acc with
    | some b => simpa using h
    | none =>
      simp only [Option.isSome_none, Bool.false_eq_true, if_false]
      rw [List.nodup_append]
      refine ⟨h, List.nodup_singleton _, ?_⟩
      intro s hs hs'
      simp only [List.mem_singleton] at hs'
      subst hs'
      exact ((alookup_eq_none (serviceOf p) acc).mp hb) hs

/-- The bucket reached by a lookup after folding all permissions in:
untouched when no permission has the service, else the old bucket extended by
exactly the matching permissions, in order. -/
theorem buildBuckets_go (perms : List Str) :
    ∀ (acc : List (Str × List Str)) (s : Str),
      alookup s (perms.foldl (fun g p => bucketAdd g (serviceOf p) p) acc) =
        if perms.filter (fun p => serviceOf p = s) = [] then alookup s acc
        else some ((alookup s acc).getD [] ++
          perms.filter (fun p => serviceOf p = s)) := by
  induction perms with
  | nil => simp
  | cons p rest ih =>
    intro acc s
    by_cases hsp : serviceOf p = s
    · have hfil : (p :: rest).filter (fun q => serviceOf q = s) =
          p :: rest.filter (fun q => serviceOf q = s) := by
        simp [List.filter, hsp]
      rw [List.foldl_cons, ih, hfil]
      cases hacc : alookup s acc with
      | some b =>
        rw [hsp] at *
        rw [alookup_bucketAdd_some acc p hacc]
        by_cases hr : rest.filter (fun q => serviceOf q = s) = [] <;>
          simp [hr, hacc]
      | none =>
        rw [hsp] at *
        rw [alookup_bucketAdd_none acc p hacc]
        by_cases hr : rest.filter (fun q => serviceOf q = s) = [] <;>
          simp [hr, hacc]
    · have hfil : (p :: rest).filter (fun q => serviceOf q = s) =
          rest.filter (fun q => serviceOf q = s) := by
        simp [List.filter, hsp]
      rw [List.foldl_cons, ih, hfil,
        alookup_bucketAdd_ne acc p hsp]

/-- The bucket of a service in the built map: absent when no permission has
the service, else exactly the matching permissions. -/
theorem buildBuckets_lookup (perms : List Str) (s : Str) :
    alookup s (buildBuckets perms) =
      if perms.filter (fun p => serviceOf p = s) = [] then Option.none
      else some (perms.filter (fun p => serviceOf p = s)) := by
  have h := buildBuckets_go perms [] s
  simpa [buildBuckets, alookup] using h

/-- A service with a matching permission has a nonempty filter. -/
theorem filter_service_ne_nil {perms : List Str} {s : Str}
    (h : s ∈ perms.map serviceOf) :
    perms.filter (fun p => serviceOf p = s) ≠ [] := by
  obtain ⟨p, hp, hsp⟩ := List.mem_map.mp h
  intro hfil
  rw [List.filter_eq_nil_iff] at hfil
  exact hfil p hp (by simp [hsp])

/-- The bucket keys are exactly the services occurring in the input. -/
theorem buildBuckets_keys_mem (perms : List Str) (s : Str) :
    s ∈ (buildBuckets perms).map (fun p => p.1) ↔ s ∈ perms.map serviceOf := by
  constructor
  · intro h
    by_contra hn
    have hfil : perms.filter (fun p => serviceOf p = s) = [] := by
      rw [List.filter_eq_nil_iff]
      intro p hp
      simp only [decide_eq_true_eq]
      intro hsp
      exact hn (List.mem_map.mpr ⟨p, hp, hsp⟩)
    have h2 := buildBuckets_lookup perms s
    rw [if_pos hfil] at h2
    exact ((alookup_eq_none s (buildBuckets perms)).mp h2) h
  · intro h
    have hne := filter_service_ne_nil h
    have h2 := buildBuckets_lookup perms s
    rw [if_neg hne] at h2
    by_contra hk
    rw [((alookup_eq_none s (buildBuckets perms)).mpr hk)] at h2
    cases h2

/-- The bucket keys are duplicate-free. -/
theorem buildBuckets_keys_nodup (perms : List Str) :
    ((buildBuckets perms).map (fun p => p.1)).Nodup :=
  buildBuckets_go_nodup perms [] List.nodup_nil

/-- The sorted bucket keys are the sorted distinct services. -/
theorem service_names_eq (perms : List Str) :
    sortStr ((buildBuckets perms).map (fun p => p.1)) =
      sortStr ((perms.map serviceOf).dedup) := by
  apply sortStr_eq_of_perm
  refine (List.perm_ext_iff_of_nodup (buildBuckets_keys_nodup perms)
    (List.nodup_dedup _)).mpr ?_
  intro s
  rw [List.mem_dedup]
  exact buildBuckets_keys_mem perms s

/-- Sorting a nonempty list never yields the empty list. -/
theorem sortStr_ne_nil {l : List Str} (h : l ≠ []) : sortStr l ≠ [] := by
  intro hnil
  have hp := sortStr_perm l
  rw [hnil] at hp
  exact h hp.symm.eq_nil

/-- The grouped JSON statements as the spec words them: one statement per
distinct service prefix, services sorted ascending, each holding the sorted
matching actions and the wildcard resource.  Written from the spec, to be
compared with `create_grouped_statements`. -/
def groupedStatementsSpec (permissions : List Str) (effect : Str) :
    List Stmt :=
  (sortStr ((permissions.map serviceOf).dedup)).map
    (fun s => ⟨effect,
      sortStr (permissions.filter (fun p => serviceOf p = s)), str "*"⟩)

/-- The grouped HCL statement blocks as the spec words them: the same data as
`groupedStatementsSpec`, rendered through the statement-block template.
Written from the spec, to be compared with
`create_grouped_statement_blocks`. -/
def groupedBlocksSpec (permissions : List Str) (effect : Str) : List Str :=
  (sortStr ((permissions.map serviceOf).dedup)).map
    (fun s => renderStmtBlock effect
      (format_action_list
        (sortStr (permissions.filter (fun p => serviceOf p = s)))))

/-- The bucket found for a sorted service name is its service filter. -/
theorem bucket_of_sorted_name {perms : List Str} {s : Str}
    (hs : s ∈ sortStr ((buildBuckets perms).map (fun p => p.1))) :
    (alookup s (buildBuckets perms)).getD [] =
      perms.filter (fun p => serviceOf p = s) := by
  have hs' : s ∈ (buildBuckets perms).map (fun p => p.1) :=
    ((sortStr_perm _).mem_iff).mp hs
  have hmem := (buildBuckets_keys_mem perms s).mp hs'
  have hne := filter_service_ne_nil hmem
  have h2 := buildBuckets_lookup perms s
  rw [if_neg hne] at h2
  rw [h2]
  rfl

/-- The grouped JSON statement builder agrees with its specification. -/
theorem create_grouped_statements_eq_spec (perms : List Str) (effect : Str) :
    create_grouped_statements perms effect =
      groupedStatementsSpec perms effect := by
  by_cases he : perms.isEmpty
  · have hnil : perms = [] := by
      cases perms with
      | nil => rfl
      | cons p rest => simp [List.isEmpty] at he
    subst hnil
    rfl
  · unfold create_grouped_statements groupedStatementsSpec
    rw [if_neg he]
    rw [← service_names_eq perms]
    apply List.map_congr_left
    intro s hs
    rw [bucket_of_sorted_name hs]

/-- The grouped HCL statement-block builder agrees with its specification. -/
theorem create_grouped_blocks_eq_spec (perms : List Str) (effect : Str) :
    create_grouped_statement_blocks perms effect =
      groupedBlocksSpec perms effect := by
  by_cases he : perms.isEmpty
  · have hnil : perms = [] := by
      cases perms with
      | nil => rfl
      | cons p rest => simp [List.isEmpty] at he
    subst hnil
    rfl
  · unfold create_grouped_statement_blocks groupedBlocksSpec
    rw [if_neg he]
    rw [← service_names_eq perms]
    apply List.map_congr_left
    intro s hs
    rw [bucket_of_sorted_name hs]

/-- C6: the grouped JSON and HCL formatters emit one statement per distinct
service prefix per effect, with service names in ascending order and the
actions inside each statement sorted ascending: both builders equal their
specification, and the sort used really is an ascending permutation. -/
theorem c6_grouped_statements :
    (∀ l : List Str, List.Sorted lexLe (sortStr l)) ∧
      (∀ l : List Str, List.Perm (sortStr l) l) ∧
      (∀ (perms : List Str) (effect : Str),
        create_grouped_statements perms effect =
          groupedStatementsSpec perms effect) ∧
      (∀ (perms : List Str) (effect : Str),
        create_grouped_statement_blocks perms effect =
          groupedBlocksSpec perms effect) :=
  ⟨sortStr_sorted, sortStr_perm, create_grouped_statements_eq_spec,
    create_grouped_blocks_eq_spec⟩

/-- Shape of every grouped JSON statement: the given effect, a nonempty
sorted action list, and the wildcard resource. -/
theorem mem_create_grouped_statements {perms : List Str} {effect : Str}
    {st : Stmt} (h : st ∈ create_grouped_statements perms effect) :
    st.effect = effect ∧ st.action ≠ [] ∧ st.resource = str "*" := by
  unfold create_grouped_statements at h
  by_cases he : perms.isEmpty
  · rw [if_pos he] at h
    exact absurd h (List.not_mem_nil st)
  · rw [if_neg he] at h
    obtain ⟨s, hs, hst⟩ := List.mem_map.mp h
    have hbucket := bucket_of_sorted_name hs
    have hne : perms.filter (fun p => serviceOf p = s) ≠ [] :=
      filter_service_ne_nil
        ((buildBuckets_keys_mem perms s).mp ((sortStr_perm _).mem_iff.mp hs))
    rw [← hst]
    refine ⟨rfl, ?_, rfl⟩
    simp only [hbucket]
    exact sortStr_ne_nil hne

/-- Shape of a flat JSON statement: produced only from a nonempty permission
set, with the given effect, sorted actions, and wildcard resource. -/
theorem single_statement_shape {perms : List Str} {effect : Str} {st : Stmt}
    (h : create_single_statement perms effect = some st) :
    st.effect = effect ∧ st.action ≠ [] ∧ st.resource = str "*" := by
  unfold create_single_statement at h
  by_cases he : perms.isEmpty
  · rw [if_pos he] at h
    cases h
  · rw [if_neg he] at h
    have hne : perms ≠ [] := by
      intro hnil
      rw [hnil] at he
      exact he rfl
    injection h with h'
    rw [← h']
    exact ⟨rfl, sortStr_ne_nil hne, rfl⟩

/-- Shape of every grouped HCL block: a render of the given effect over a
nonempty sorted action list. -/
theorem mem_create_grouped_blocks {perms : List Str} {effect : Str}
    {blk : Str} (h : blk ∈ create_grouped_statement_blocks perms effect) :
    ∃ acts, acts ≠ [] ∧
      blk = renderStmtBlock effect (format_action_list (sortStr acts)) := by
  unfold create_grouped_statement_blocks at h
  by_cases he : perms.isEmpty
  · rw [if_pos he] at h
    exact absurd h (List.not_mem_nil blk)
  · rw [if_neg he] at h
    obtain ⟨s, hs, hst⟩ := List.mem_map.mp h
    have hbucket := bucket_of_sorted_name hs
    have hne : perms.filter (fun p => serviceOf p = s) ≠ [] :=
      filter_service_ne_nil
        ((buildBuckets_keys_mem perms s).mp ((sortStr_perm _).mem_iff.mp hs))
    refine ⟨perms.filter (fun p => serviceOf p = s), hne, ?_⟩
    rw [← hst, hbucket]

/-- Shape of a flat HCL block: produced only from a nonempty permission set. -/
theorem format_statement_block_shape {perms : List Str} {effect : Str}
    {blk : Str} (h : format_statement_block perms effect = some blk) :
    ∃ acts, acts ≠ [] ∧
      blk = renderStmtBlock effect (format_action_list (sortStr acts)) := by
  unfold format_statement_block at h
  by_cases he : perms.isEmpty
  · rw [if_pos he] at h
    cases h
  · rw [if_neg he] at h
    have hne : perms ≠ [] := by
      intro hnil
      rw [hnil] at he
      exact he rfl
    injection h with h'
    exact ⟨perms, hne, h'.symm⟩

/-- Every rendered statement block carries `Resource = "*"`. -/
theorem resource_infix (effect actions_hcl : Str) :
    str "Resource = \"*\"" <:+: renderStmtBlock effect actions_hcl := by
  refine ⟨str "    \x7b\n      Effect   = \"" ++ effect ++
    str "\"\n      Action   = " ++ actions_hcl ++ str "\n      ",
    str "\n    \x7d", ?_⟩
  have hC : str "\n      Resource = \"*\"\n    \x7d" =
      str "\n      " ++ str "Resource = \"*\"" ++ str "\n    \x7d" := by decide
  unfold renderStmtBlock
  rw [hC]
  simp [List.append_assoc]

/-- C5: in JSON and HCL output alike, a statement is emitted for an effect or
service only when its action set is nonempty, every emitted statement carries
the wildcard resource, and all Deny statements precede all Allow statements
in the statement array. -/
theorem c5_statement_emission :
    (∀ (grouped : Bool) (ps : PermissionSets) (st : Stmt),
        st ∈ jsonStatements grouped ps →
        st.action ≠ [] ∧ st.resource = str "*") ∧
      (∀ (grouped : Bool) (ps : PermissionSets), ∃ d al,
        jsonStatements grouped ps = d ++ al ∧
          (∀ st ∈ d, st.effect = str "Deny") ∧
          (∀ st ∈ al, st.effect = str "Allow")) ∧
      (∀ (grouped : Bool) (ps : PermissionSets) (blk : Str),
        blk ∈ hclStatementBlocks grouped ps →
        (∃ e acts, acts ≠ [] ∧
          blk = renderStmtBlock e (format_action_list (sortStr acts))) ∧
          str "Resource = \"*\"" <:+: blk) ∧
      (∀ (grouped : Bool) (ps : PermissionSets), ∃ d al,
        hclStatementBlocks grouped ps = d ++ al ∧
          (∀ blk ∈ d, ∃ acts,
            blk = renderStmtBlock (str "Deny") (format_action_list (sortStr acts))) ∧
          (∀ blk ∈ al, ∃ acts,
            blk = renderStmtBlock (str "Allow") (format_action_list (sortStr acts)))) := by
  refine ⟨?_, ?_, ?_, ?_⟩
  · intro grouped ps st h
    cases grouped with
    | true =>
      rcases List.mem_append.mp h with h' | h'
      · exact (mem_create_grouped_statements h').2
      · exact (mem_create_grouped_statements h').2
    | false =>
      rcases List.mem_append.mp h with h' | h'
      · exact (single_statement_shape (Option.mem_toList.mp h' :
          _ ∈ create_single_statement ps.deny (str "Deny"))).2
      · exact (single_statement_shape (Option.mem_toList.mp h' :
          _ ∈ create_single_statement ps.allow (str "Allow"))).2
  · intro grouped ps
    cases grouped with
    | true =>
      refine ⟨_, _, rfl, ?_, ?_⟩
      · exact fun st h => (mem_create_grouped_statements h).1
      · exact fun st h => (mem_create_grouped_statements h).1
    | false =>
      refine ⟨_, _, rfl, ?_, ?_⟩
      · intro st h
        exact (single_statement_shape (Option.mem_toList.mp h :
          _ ∈ create_single_statement ps.deny (str "Deny"))).1
      · intro st h
        exact (single_statement_shape (Option.mem_toList.mp h :
          _ ∈ create_single_statement ps.allow (str "Allow"))).1
  · intro grouped ps blk h
    have hshape : ∃ e acts, acts ≠ [] ∧
        blk = renderStmtBlock e (format_action_list (sortStr acts)) := by
      cases grouped with
      | true =>
        rcases List.mem_append.mp h with h' | h'
        · obtain ⟨acts, hne, heq⟩ := mem_create_grouped_blocks h'
          exact ⟨str "Deny", acts, hne, heq⟩
        · obtain ⟨acts, hne, heq⟩ := mem_create_grouped_blocks h'
          exact ⟨str "Allow", acts, hne, heq⟩
      | false =>
        rcases List.mem_append.mp h with h' | h'
        · obtain ⟨acts, hne, heq⟩ := format_statement_block_shape
            (Option.mem_toList.mp h' :
              _ ∈ format_statement_block ps.deny (str "Deny"))
          exact ⟨str "Deny", acts, hne, heq⟩
        · obtain ⟨acts, hne, heq⟩ := format_statement_block_shape
            (Option.mem_toList.mp h' :
              _ ∈ format_statement_block ps.allow (str "Allow"))
          exact ⟨str "Allow", acts, hne, heq⟩
    refine ⟨hshape, ?_⟩
    obtain ⟨e, acts, _, heq⟩ := hshape
    rw [heq]
    exact resource_infix e _
  · intro grouped ps
    cases grouped with
    | true =>
      refine ⟨_, _, rfl, ?_, ?_⟩
      · intro blk h
        obtain ⟨acts, _, heq⟩ := mem_create_grouped_blocks h
        exact ⟨acts, heq⟩
      · intro blk h
        obtain ⟨acts, _, heq⟩ := mem_create_grouped_blocks h
        exact ⟨acts, heq⟩
    | false =>
      refine ⟨_, _, rfl, ?_, ?_⟩
      · intro blk h
        obtain ⟨acts, _, heq⟩ := format_statement_block_shape
          (Option.mem_toList.mp h :
            _ ∈ format_statement_block ps.deny (str "Deny"))
        exact ⟨acts, heq⟩
      · intro blk h
        obtain ⟨acts, _, heq⟩ := format_statement_block_shape
          (Option.mem_toList.mp h :
            _ ∈ format_statement_block ps.allow (str "Allow"))
        exact ⟨acts, heq⟩

/-- Witness for C5: the four parts applied at concrete permission sets. -/
theorem c5_witness :
    ((⟨str "Allow", [str "a:B"], str "*"⟩ : Stmt).action ≠ [] ∧
        (⟨str "Allow", [str "a:B"], str "*"⟩ : Stmt).resource = str "*") ∧
      (∃ d al,
        jsonStatements true ⟨[str "s3:X"], [str "ec2:Y"]⟩ = d ++ al ∧
          (∀ st ∈ d, st.effect = str "Deny") ∧
          (∀ st ∈ al, st.effect = str "Allow")) ∧
      ((∃ e acts, acts ≠ [] ∧
          renderStmtBlock (str "Allow") (format_action_list (sortStr [str "s3:X"])) =
            renderStmtBlock e (format_action_list (sortStr acts))) ∧
        str "Resource = \"*\"" <:+:
          renderStmtBlock (str "Allow") (format_action_list (sortStr [str "s3:X"]))) ∧
      (∃ d al,
        hclStatementBlocks false ⟨[str "s3:X"], []⟩ = d ++ al ∧
          (∀ blk ∈ d, ∃ acts,
            blk = renderStmtBlock (str "Deny") (format_action_list (sortStr acts))) ∧
          (∀ blk ∈ al, ∃ acts,
            blk = renderStmtBlock (str "Allow") (format_action_list (sortStr acts)))) :=
  ⟨c5_statement_emission.1 false ⟨[str "a:B"], []⟩
      ⟨str "Allow", [str "a:B"], str "*"⟩ (by decide),
    c5_statement_emission.2.1 true ⟨[str "s3:X"], [str "ec2:Y"]⟩,
    c5_statement_emission.2.2.1 false ⟨[str "s3:X"], []⟩
      (renderStmtBlock (str "Allow") (format_action_list (sortStr [str "s3:X"])))
      (by decide),
    c5_statement_emission.2.2.2 false ⟨[str "s3:X"], []⟩⟩

/-! ## C9: URL-parsing stability across equivalent forms -/

theorem validComponent_spec {c : Str} (h : validComponent c = true) :
    c.isEmpty = false ∧ containsDD c = false ∧ ¬ '/' ∈ c ∧ ¬ '\\' ∈ c ∧
      ¬ c.head? = some '.' ∧ ¬ c.head? = some '-' := by
  simp only [validComponent, Bool.and_eq_true, Bool.not_eq_true',
    decide_eq_false_iff_not] at h
  exact ⟨h.1.1.1.1.1, h.1.1.1.1.2, h.1.1.1.2, h.1.1.2, h.1.2, h.2⟩

theorem valid_no_slash {c : Str} (h : validComponent c = true) : '/' ∉ c :=
  (validComponent_spec h).2.2.1

theorem valid_ne_nil {c : Str} (h : validComponent c = true) : c ≠ [] := by
  have h1 := (validComponent_spec h).1
  cases c with
  | nil => simp at h1
  | cons a as => exact List.cons_ne_nil a as

theorem validate_ok_of_valid {c : Str} (h : validComponent c = true)
    (url : Str) : validate_path_component c url = Except.ok () := by
  obtain ⟨h1, h2, h3, h4, h5, h6⟩ := validComponent_spec h
  unfold validate_path_component
  rw [if_neg (by simp [h1]), if_neg (by simp [h2]),
    if_neg (not_or.mpr ⟨h3, h4⟩), if_neg h5, if_neg h6]

theorem stripGitRev_tig (rest : List Char) :
    stripGitRev ('t' :: 'i' :: 'g' :: '.' :: rest) = stripGitRev rest := by
  simp [stripGitRev]

theorem stripGitRev_eq_self : ∀ (l : List Char),
    (∀ rest, l ≠ 't' :: 'i' :: 'g' :: '.' :: rest) → stripGitRev l = l
  | [], _ => rfl
  | [_], _ => rfl
  | [_, _], _ => rfl
  | [_, _, _], _ => rfl
  | t :: i :: g :: d :: rest, h => by
    unfold stripGitRev
    rw [if_neg]
    rintro ⟨ht, hi, hg, hd⟩
    exact h rest (by rw [ht, hi, hg, hd])

theorem git_suffix_iff {s : Str} :
    str ".git" <:+ s ↔ ∃ rest, s.reverse = 't' :: 'i' :: 'g' :: '.' :: rest := by
  constructor
  · rintro ⟨t, ht⟩
    refine ⟨t.reverse, ?_⟩
    rw [← ht, List.reverse_append]
    rfl
  · rintro ⟨rest, hrev⟩
    refine ⟨rest.reverse, ?_⟩
    have h := congrArg List.reverse hrev
    rw [List.reverse_reverse] at h
    rw [h, show str ".git" = ['.', 'g', 'i', 't'] from rfl]
    simp [List.reverse_cons, List.append_assoc]

theorem stripDotGit_append_git (s : Str) :
    stripDotGit (s ++ str ".git") = stripDotGit s := by
  unfold stripDotGit
  rw [List.reverse_append,
    show (str ".git").reverse = 't' :: 'i' :: 'g' :: '.' :: ([] : List Char) from rfl,
    show ('t' :: 'i' :: 'g' :: '.' :: ([] : List Char)) ++ s.reverse
      = 't' :: 'i' :: 'g' :: '.' :: s.reverse from rfl,
    stripGitRev_tig]

theorem stripDotGit_eq_self {s : Str} (h : ¬ str ".git" <:+ s) :
    stripDotGit s = s := by
  have hne : ∀ rest, s.reverse ≠ 't' :: 'i' :: 'g' :: '.' :: rest :=
    fun rest hrest => h (git_suffix_iff.mpr ⟨rest, hrest⟩)
  unfold stripDotGit
  rw [stripGitRev_eq_self s.reverse hne, List.reverse_reverse]

theorem git_not_suffix_append {u r : Str} (h : ¬ str ".git" <:+ r) :
    ¬ str ".git" <:+ (u ++ '/' :: r) := by
  intro hsuf
  obtain ⟨rest, hrev⟩ := git_suffix_iff.mp hsuf
  rw [List.reverse_append, List.reverse_cons, List.append_assoc,
    List.singleton_append] at hrev
  apply h
  rw [git_suffix_iff]
  rcases hrr : r.reverse with _ | ⟨a, _ | ⟨b, _ | ⟨c3, _ | ⟨d, t4⟩⟩⟩⟩ <;>
    rw [hrr] at hrev <;>
    simp only [List.cons_append, List.nil_append, List.cons_eq_cons] at hrev
  · exact absurd hrev.1 (by decide)
  · exact absurd hrev.2.1 (by decide)
  · exact absurd hrev.2.2.1 (by decide)
  · exact absurd hrev.2.2.2.1 (by decide)
  · obtain ⟨h1, h2, h3, h4, _⟩ := hrev
    exact ⟨t4, by rw [h1, h2, h3, h4]⟩

theorem splitChar_of_not_mem (sep : Char) : ∀ (xs : Str), sep ∉ xs →
    splitChar sep xs = [xs]
  | [], _ => rfl
  | c :: cs, h => by
    have hc : ¬ (c = sep) := by
      intro hce
      exact h (by rw [hce]; exact List.mem_cons_self sep cs)
    have hcs : sep ∉ cs := fun hm => h (List.mem_cons_of_mem c hm)
    simp only [splitChar]
    rw [if_neg hc, splitChar_of_not_mem sep cs hcs]

theorem splitChar_append_sep (sep : Char) : ∀ (xs ys : Str), sep ∉ xs →
    splitChar sep (xs ++ sep :: ys) = xs :: splitChar sep ys
  | [], ys, _ => by
    simp [splitChar]
  | c :: cs, ys, h => by
    have hc : ¬ (c = sep) := by
      intro hce
      exact h (by rw [hce]; exact List.mem_cons_self sep cs)
    have hcs : sep ∉ cs := fun hm => h (List.mem_cons_of_mem c hm)
    simp only [List.cons_append, splitChar, List.append_eq]
    rw [if_neg hc, splitChar_append_sep sep cs ys hcs]

theorem isPrefixOf_append (p s : Str) : p.isPrefixOf (p ++ s) = true := by
  induction p with
  | nil => simp [List.isPrefixOf]
  | cons c cs ih => simp [List.isPrefixOf, ih]

theorem isPrefixOf_cons_ne {a b : Char} (h : ¬ (a = b)) (p s : Str) :
    (a :: p).isPrefixOf (b :: s) = false := by
  simp [List.isPrefixOf, h]

theorem dropPre_append (p s : Str) : dropPre p (p ++ s) = some s := by
  unfold dropPre
  rw [if_pos (isPrefixOf_append p s), List.drop_left]

theorem dropWhile_all (p : Char → Bool) : ∀ (xs ys : List Char),
    (∀ c ∈ xs, p c = true) → (xs ++ ys).dropWhile p = ys.dropWhile p
  | [], _, _ => rfl
  | c :: cs, ys, h => by
    rw [List.cons_append, List.dropWhile_cons,
      if_pos (h c (List.mem_cons_self c cs))]
    exact dropWhile_all p cs ys fun d hd => h d (List.mem_cons_of_mem c hd)

theorem trimAscii_eq_self {s : Str}
    (h1 : ∀ c, s.head? = some c → c.isWhitespace = false)
    (h2 : ∀ c, s.getLast? = some c → c.isWhitespace = false) :
    trimAscii s = s := by
  unfold trimAscii
  cases s with
  | nil => rfl
  | cons c cs =>
    have hc : c.isWhitespace = false := h1 c rfl
    rw [List.dropWhile_cons, if_neg (by simp [hc])]
    cases hr : (c :: cs).reverse with
    | nil => exact absurd hr (by simp)
    | cons d ds =>
      have hd : d.isWhitespace = false := by
        apply h2 d
        rw [← List.head?_reverse, hr]
        rfl
      rw [List.dropWhile_cons, if_neg (by simp [hd]), ← hr,
        List.reverse_reverse]

theorem parse_https_core (u rr r : Str) (hu : validComponent u = true)
    (hr : validComponent r = true) (hstrip : stripDotGit rr = r)
    (hrr : '/' ∉ rr) :
    parse_https_url (str "https://" ++ (str "github.com/" ++ (u ++ ('/' :: rr))))
      = Except.ok (u ++ str "/" ++ r) := by
  have husl : '/' ∉ u := valid_no_slash hu
  simp only [parse_https_url, dropPre_append, Option.or, Option.getD_some]
  rw [show str "github.com/" ++ (u ++ ('/' :: rr))
      = str "github.com" ++ ('/' :: (u ++ ('/' :: rr))) from rfl,
    splitChar_append_sep '/' (str "github.com") (u ++ ('/' :: rr)) (by decide),
    splitChar_append_sep '/' u rr husl, splitChar_of_not_mem '/' rr hrr]
  simp only [hstrip, validate_ok_of_valid hu, validate_ok_of_valid hr]
  rfl

theorem parse_ssh_core (u rr r : Str) (hu : validComponent u = true)
    (hr : validComponent r = true)
    (hstrip : stripDotGit (u ++ ('/' :: rr)) = u ++ ('/' :: r))
    (hrns : '/' ∉ r) :
    parse_ssh_url (str "git@" ++ (str "github.com:" ++ (u ++ ('/' :: rr))))
      = Except.ok (u ++ str "/" ++ r) := by
  simp only [parse_ssh_url, dropPre_append]
  rw [show str "github.com:" ++ (u ++ ('/' :: rr))
      = str "github.com" ++ (':' :: (u ++ ('/' :: rr))) from rfl]
  rw [if_pos (List.mem_append.mpr
    (Or.inr (List.mem_cons_self ':' (u ++ ('/' :: rr)))))]
  have hpath : ((str "github.com" ++ (':' :: (u ++ ('/' :: rr)))).dropWhile
      (fun c => c ≠ ':')).drop 1 = u ++ ('/' :: rr) := by
    rw [dropWhile_all _ (str "github.com") (':' :: (u ++ ('/' :: rr)))
      (by decide), List.dropWhile_cons, if_neg (by decide)]
    rfl
  rw [hpath, hstrip, splitChar_append_sep '/' u r (valid_no_slash hu),
    splitChar_of_not_mem '/' r hrns]
  simp only [validate_ok_of_valid hu, validate_ok_of_valid hr]
  rfl

/-- C9 counterexample: `repo.git` is itself a valid path component, yet the
HTTPS form `https://github.com/user/repo.git` parses to `user/repo`, not to
the claimed literal `u/r` result `user/repo.git` — the trailing `.git` is
always stripped, so the claim fails for repository names ending in `.git`. -/
theorem c9_counterexample :
    validate_path_component (str "user")
        (str "https://github.com/user/repo.git") = Except.ok () ∧
      validate_path_component (str "repo.git")
        (str "https://github.com/user/repo.git") = Except.ok () ∧
      parse_repo_path (str "https://github.com/user/repo.git")
        = Except.ok (str "user/repo") ∧
      str "user/repo" ≠ str "user/repo.git" :=
  ⟨rfl, rfl, rfl, by decide⟩

/-- C9 as amended: for all valid user and repository component names `u` and
`r`, where `r` neither ends in `.git` (which the parser would strip) nor ends
in whitespace (which the parser would trim), the three equivalent URL forms
`https://github.com/u/r`, `https://github.com/u/r.git`, and
`git@github.com:u/r.git` all parse to the same `u/r` result. -/
theorem c9_url_forms (u r : Str) (hu : validComponent u = true)
    (hr : validComponent r = true) (hgit : ¬ str ".git" <:+ r)
    (hw : ∀ c, r.getLast? = some c → c.isWhitespace = false) :
    parse_repo_path (str "https://github.com/" ++ u ++ str "/" ++ r)
        = Except.ok (u ++ str "/" ++ r) ∧
      parse_repo_path (str "https://github.com/" ++ u ++ str "/" ++ r ++ str ".git")
        = Except.ok (u ++ str "/" ++ r) ∧
      parse_repo_path (str "git@github.com:" ++ u ++ str "/" ++ r ++ str ".git")
        = Except.ok (u ++ str "/" ++ r) := by
  have hrsl : '/' ∉ r := valid_no_slash hr
  have hrne : r ≠ [] := valid_ne_nil hr
  refine ⟨?_, ?_, ?_⟩
  · have htrim : trimAscii (str "https://github.com/" ++ u ++ str "/" ++ r)
        = str "https://github.com/" ++ u ++ str "/" ++ r := by
      apply trimAscii_eq_self
      · intro c hc
        have h : some 'h' = some c := hc
        injection h with h'
        rw [← h']
        decide
      · intro c hc
        rw [List.getLast?_append_of_ne_nil _ hrne] at hc
        exact hw c hc
    have hshape : str "https://github.com/" ++ u ++ str "/" ++ r
        = str "https://" ++ (str "github.com/" ++ (u ++ ('/' :: r))) := by
      rw [List.append_assoc, List.append_assoc]
      rfl
    simp only [parse_repo_path, htrim]
    rw [hshape, if_pos (Or.inl (isPrefixOf_append (str "https://") _))]
    exact parse_https_core u r r hu hr (stripDotGit_eq_self hgit) hrsl
  · have hrrns : ('/' : Char) ∉ (r ++ str ".git") := by
      intro hm
      rcases List.mem_append.mp hm with h | h
      · exact hrsl h
      · exact absurd h (by decide)
    have htrim :
        trimAscii (str "https://github.com/" ++ u ++ str "/" ++ r ++ str ".git")
          = str "https://github.com/" ++ u ++ str "/" ++ r ++ str ".git" := by
      apply trimAscii_eq_self
      · intro c hc
        have h : some 'h' = some c := hc
        injection h with h'
        rw [← h']
        decide
      · intro c hc
        rw [List.getLast?_append_of_ne_nil _
          (show str ".git" ≠ [] by decide)] at hc
        have h : some 't' = some c := hc
        injection h with h'
        rw [← h']
        decide
    have hshape : str "https://github.com/" ++ u ++ str "/" ++ r ++ str ".git"
        = str "https://" ++ (str "github.com/" ++ (u ++ ('/' :: (r ++ str ".git")))) := by
      rw [List.append_assoc, List.append_assoc, List.append_assoc]
      rfl
    simp only [parse_repo_path, htrim]
    rw [hshape, if_pos (Or.inl (isPrefixOf_append (str "https://") _))]
    refine parse_https_core u (r ++ str ".git") r hu hr ?_ hrrns
    rw [stripDotGit_append_git]
    exact stripDotGit_eq_self hgit
  · have htrim :
        trimAscii (str "git@github.com:" ++ u ++ str "/" ++ r ++ str ".git")
          = str "git@github.com:" ++ u ++ str "/" ++ r ++ str ".git" := by
      apply trimAscii_eq_self
      · intro c hc
        have h : some 'g' = some c := hc
        injection h with h'
        rw [← h']
        decide
      · intro c hc
        rw [List.getLast?_append_of_ne_nil _
          (show str ".git" ≠ [] by decide)] at hc
        have h : some 't' = some c := hc
        injection h with h'
        rw [← h']
        decide
    have hshape : str "git@github.com:" ++ u ++ str "/" ++ r ++ str ".git"
        = str "git@" ++ (str "github.com:" ++ (u ++ ('/' :: (r ++ str ".git")))) := by
      rw [List.append_assoc, List.append_assoc, List.append_assoc]
      rfl
    have hp1 : (str "https://").isPrefixOf
        (str "git@" ++ (str "github.com:" ++ (u ++ ('/' :: (r ++ str ".git")))))
          = false := isPrefixOf_cons_ne (by decide) _ _
    have hp2 : (str "http://").isPrefixOf
        (str "git@" ++ (str "github.com:" ++ (u ++ ('/' :: (r ++ str ".git")))))
          = false := isPrefixOf_cons_ne (by decide) _ _
    simp only [parse_repo_path, htrim]
    rw [hshape, if_neg (by simp [hp1, hp2]),
      if_pos (isPrefixOf_append (str "git@") _)]
    refine parse_ssh_core u (r ++ str ".git") r hu hr ?_ hrsl
    rw [show u ++ ('/' :: (r ++ str ".git")) = (u ++ ('/' :: r)) ++ str ".git"
        from by simp, stripDotGit_append_git]
    exact stripDotGit_eq_self (git_not_suffix_append hgit)

/-- Witness for C9: the amended theorem applied to the concrete components
`alice` and `proj`, with every hypothesis discharged on the spot. -/
theorem c9_url_forms_witness :
    validComponent (str "alice") = true ∧
      validComponent (str "proj") = true ∧
      ¬ str ".git" <:+ str "proj" ∧
      (parse_repo_path (str "https://github.com/" ++ str "alice" ++ str "/" ++ str "proj")
          = Except.ok (str "alice" ++ str "/" ++ str "proj") ∧
        parse_repo_path
            (str "https://github.com/" ++ str "alice" ++ str "/" ++ str "proj" ++ str ".git")
          = Except.ok (str "alice" ++ str "/" ++ str "proj") ∧
        parse_repo_path
            (str "git@github.com:" ++ str "alice" ++ str "/" ++ str "proj" ++ str ".git")
          = Except.ok (str "alice" ++ str "/" ++ str "proj")) :=
  ⟨by decide, by decide, by decide,
    c9_url_forms (str "alice") (str "proj") (by decide) (by decide) (by decide)
      (fun c hc => by
        have h : some 'j' = some c := hc
        injection h with h'
        rw [← h']
        decide)⟩

end Lppc
